import Mathlib

/-!
# Contiguous memory allocator (`src/main.c`)

A shallow embedding of the linked list of memory blocks kept by `main.c` and of
the operations on it: `create_node`, `merge`, `swap_nodes`, `find_process`,
`first_fit`, `best_fit`, `worst_fit`, `request_memory`, `release_memory`,
`compact`, and the initialisation done in `main`.

Modelling conventions.

* The C list `head -> n1 -> n2 -> ... -> NULL` is a dummy node `head` together
  with the Lean list `[n1, n2, ...]`.
* The global cursor `temp` is reset by every operation before it is read, so it
  is not part of the state; inside an operation it is the node argument named
  `temp` together with the list of nodes that follow it.
* C `int` values are Lean integers. Signed overflow is undefined in C and is not
  modelled: a sum of the model is the value the program computes when it lies
  between `INT_MIN` and `INT_MAX`, and a theorem whose subject is the value of
  such a sum assumes that it does (`SplitInRange`). `INT_MAX` and `INT_MIN` are
  the two constants of `limits.h`.
* The functions print messages instead of returning a status; the message that
  is printed (or its absence) is the `Outcome`.
* Reading a field through a `NULL` link aborts the program; operations that can
  do so return `Option`, and `none` is that abort.
-/

namespace MemoryManager

/-- The label of a free block: `#define UNUSED "Unused"`. -/
def UNUSED : String := "Unused"

/-- The constant `INT_MAX` of `limits.h` for a 32 bit `int`. -/
def INT_MAX : Int := 2147483647

/-- The constant `INT_MIN` of `limits.h` for a 32 bit `int`. -/
def INT_MIN : Int := -2147483648

/-- One block of memory: `struct Node` without its `next` link. -/
structure Node where
  available_space : Int
  start_address : Int
  end_address : Int
  process_id : String
deriving DecidableEq

/-- The global state: the dummy node `head` (its `available_space` is the
counter of free bytes printed by `STAT`), the chain `head->next`, and
`last_address_space`. -/
structure Mem where
  head : Node
  nodes : List Node
  last_address_space : Int
deriving DecidableEq

/-- What an operation reports: nothing (`ok`) or one of its messages. -/
inductive Outcome where
  | ok
  | outOfSpace
  | duplicateOwner
  | invalidStrategy
  | unknownOwner
deriving DecidableEq

/-- The state built by `main` (lines 493-524) for `argv[1] = total`. -/
def init (total : Int) : Mem :=
  let inital_memory := total - 1
  { head := { process_id := "Dummy Node", start_address := -1, end_address := -1,
              available_space := inital_memory },
    nodes := [{ process_id := UNUSED, start_address := 0, end_address := inital_memory,
                available_space := inital_memory - 0 }],
    last_address_space := inital_memory }

/-- The address fix-up loop of `create_node` (lines 85-92): `temp` is the node
before the list; every node but the last gets a new start and end, the last one
a new start only. -/
def shift_addresses (temp : Node) : List Node → List Node
  | [] => []
  | [l] => [{ l with start_address := temp.end_address + 1 }]
  | x :: y :: rest =>
    let x1 : Node := { x with start_address := temp.end_address + 1,
                              end_address := temp.end_address + 1 + x.available_space }
    x1 :: shift_addresses x1 (y :: rest)

/-- The `int` values that the split of the unused block `n` for a request of
`size` bytes computes are in the range of a C `int`, so that none of the
operations overflows: the end of the allocated block (line 213,
`start_address + space_requested`), the left-over space (line 216,
`available_space - space_requested`), the start of the new node (line 65,
`end_address + 1`) and the sum of line 66 (`start_address + left_over_space`,
before it is compared with `last_address_space` on line 68). -/
def SplitInRange (n : Node) (size : Int) : Prop :=
  (INT_MIN ≤ n.start_address + size ∧ n.start_address + size ≤ INT_MAX) ∧
  (INT_MIN ≤ n.available_space - size ∧ n.available_space - size ≤ INT_MAX) ∧
  (INT_MIN ≤ n.start_address + size + 1 ∧ n.start_address + size + 1 ≤ INT_MAX) ∧
  (INT_MIN ≤ n.start_address + size + 1 + (n.available_space - size) ∧
    n.start_address + size + 1 + (n.available_space - size) ≤ INT_MAX)

instance (n : Node) (size : Int) : Decidable (SplitInRange n size) :=
  inferInstanceAs (Decidable (_ ∧ _))

/-- The function `create_node` (lines 58-95). `n` is `temp->next`, the block
just given to the process, and `post` the chain after it; the result is the
chain from `temp->next` on. The sums `n.end_address + 1` (line 65) and
`start + left_over_space` (line 66) are integer sums: they are the values of
the C `int` additions when these do not overflow (`SplitInRange`). When the
addition of line 66 overflows, the comparison of line 68 reads the overflowed
value and the model does not describe the end address of the new node. -/
def create_node (space_requested left_over_space last_address_space : Int)
    (n : Node) (post : List Node) : List Node :=
  let start := n.end_address + 1
  let newNode : Node :=
    { process_id := UNUSED, available_space := left_over_space, start_address := start,
      end_address := if start + left_over_space > last_address_space
                     then last_address_space else start + left_over_space }
  let n1 : Node := { n with available_space := space_requested }
  match post with
  | [] => [n1, newNode]
  | p :: ps =>
    if newNode.end_address = p.start_address then
      n1 :: newNode :: shift_addresses newNode (p :: ps)
    else n1 :: newNode :: p :: ps

/-- The body shared by the three placement functions once a block `n` is
chosen (lines 211-220, 272-281, 333-342): label it, set its end, and split off
the left-over space. The result is the chain from the chosen block on. -/
def place (process_id : String) (space_requested last_address_space : Int)
    (n : Node) (post : List Node) : List Node :=
  let n1 : Node := { n with process_id := process_id,
                            end_address := n.start_address + space_requested }
  let left_over_space := n1.available_space - space_requested
  if left_over_space > 0 then
    create_node space_requested left_over_space last_address_space n1 post
  else n1 :: post

/-- The placement loop of the three strategies: walk the chain and place the
process in the first block that satisfies `test`; `none` when the loop reaches
the end of the chain. -/
def place_scan (test : Node → Bool) (process_id : String)
    (space_requested last_address_space : Int) : List Node → Option (List Node)
  | [] => none
  | n :: post =>
    if test n then some (place process_id space_requested last_address_space n post)
    else (place_scan test process_id space_requested last_address_space post).map (n :: ·)

/-- The test of `first_fit` and of the first loops of `best_fit` and
`worst_fit`: the block is unused and big enough. -/
def fits (space_requested : Int) (n : Node) : Bool :=
  n.process_id = UNUSED ∧ n.available_space ≥ space_requested

/-- What a placement loop does to the state: on success the counter in `head`
is decreased, and otherwise the "no space" message is printed. -/
def finish_request (m : Mem) (space_requested : Int) : Option (List Node) → Outcome × Mem
  | some ns =>
    (Outcome.ok,
      { m with head := { m.head with
                          available_space := m.head.available_space - space_requested },
               nodes := ns })
  | none => (Outcome.outOfSpace, m)

/-- The function `first_fit` (lines 198-232). -/
def first_fit (m : Mem) (process_id : String) (space_requested : Int) : Outcome × Mem :=
  finish_request m space_requested
    (place_scan (fits space_requested) process_id space_requested m.last_address_space m.nodes)

/-- The first loop of `best_fit` (lines 247-260), started with the current
value of `smallest_space`. -/
def smallest_space (space_requested : Int) : List Node → Int → Int
  | [], smallest => smallest
  | n :: rest, smallest =>
    if fits space_requested n then
      if n.available_space ≤ smallest then smallest_space space_requested rest n.available_space
      else smallest_space space_requested rest smallest
    else smallest_space space_requested rest smallest

/-- The function `best_fit` (lines 240-293). -/
def best_fit (m : Mem) (process_id : String) (space_requested : Int) : Outcome × Mem :=
  let smallest := smallest_space space_requested m.nodes INT_MAX
  finish_request m space_requested
    (place_scan (fun n => n.process_id = UNUSED ∧ n.available_space = smallest)
      process_id space_requested m.last_address_space m.nodes)

/-- The first loop of `worst_fit` (lines 308-321), started with the current
value of `largest_space`. -/
def largest_space (space_requested : Int) : List Node → Int → Int
  | [], largest => largest
  | n :: rest, largest =>
    if fits space_requested n then
      if n.available_space ≥ largest then largest_space space_requested rest n.available_space
      else largest_space space_requested rest largest
    else largest_space space_requested rest largest

/-- The function `worst_fit` (lines 301-354). -/
def worst_fit (m : Mem) (process_id : String) (space_requested : Int) : Outcome × Mem :=
  let largest := largest_space space_requested m.nodes INT_MIN
  finish_request m space_requested
    (place_scan (fun n => n.process_id = UNUSED ∧ n.available_space = largest)
      process_id space_requested m.last_address_space m.nodes)

/-- The return value of `find_process` (lines 173-190): whether some block of
the chain carries the label. -/
def find_process (process_id : String) : List Node → Bool
  | [] => false
  | n :: rest => if n.process_id = process_id then true else find_process process_id rest

/-- The function `request_memory` (lines 363-386). -/
def request_memory (m : Mem) (process_id : String) (space_requested : Int) (algo : String) :
    Outcome × Mem :=
  if find_process process_id m.nodes = true then (Outcome.duplicateOwner, m)
  else if algo = "W" then worst_fit m process_id space_requested
  else if algo = "B" then best_fit m process_id space_requested
  else if algo = "F" then first_fit m process_id space_requested
  else (Outcome.invalidStrategy, m)

/-- The first `if` / `else if` of `merge` (lines 105-129) on the cursor `temp`
and the chain after it; `none` is a read through a `NULL` link. -/
def merge_first (temp : Node) (rest : List Node) : Option (Node × List Node) :=
  if temp.process_id = UNUSED then
    match rest with
    | [] => none
    | r :: rs =>
      some ({ temp with end_address := r.end_address,
                        available_space := temp.available_space + r.available_space }, rs)
  else
    match rest with
    | [] => none
    | [r] => some (temp, [r])
    | r :: r2 :: rs =>
      if r2.process_id = UNUSED then
        some (temp, { r2 with start_address := r.start_address,
                              available_space := r2.available_space + r.available_space } :: rs)
      else some (temp, r :: r2 :: rs)

/-- The last `if` of `merge` (lines 133-142). -/
def merge_second (temp : Node) (rest : List Node) : Option (Node × List Node) :=
  if temp.process_id = UNUSED then
    match rest with
    | [] => none
    | r :: rs =>
      if r.process_id = UNUSED then
        some ({ temp with end_address := r.end_address,
                          available_space := temp.available_space + r.available_space }, rs)
      else some (temp, r :: rs)
  else some (temp, rest)

/-- The function `merge` (lines 101-143): the cursor and the chain after it,
before and after. -/
def merge (temp : Node) (rest : List Node) : Option (Node × List Node) :=
  match merge_first temp rest with
  | none => none
  | some (temp1, rest1) => merge_second temp1 rest1

/-- The function `swap_nodes` (lines 149-166): the chain after the cursor,
before and after; `none` when one of the two blocks is missing. -/
def swap_nodes : List Node → Option (List Node)
  | a :: b :: rs =>
    let b1 : Node := { b with start_address := a.start_address,
                              end_address := a.start_address + b.available_space }
    let a1 : Node := { a with start_address := b1.end_address + 1,
                              end_address := b1.end_address + 1 + a.available_space }
    some (b1 :: a1 :: rs)
  | _ => none

/-- The block found by `find_process`, that is `temp->next` after a call that
returned 1. -/
def found_node (process_id : String) : List Node → Option Node
  | [] => none
  | n :: rest => if n.process_id = process_id then some n else found_node process_id rest

/-- Lines 402-405 of `release_memory`, at the cursor left by `find_process`:
walk from `temp` to the block before the first one labelled `process_id`, mark
that one unused and run `merge` there. The result is `temp` and the chain after
it. -/
def release_at (process_id : String) (temp : Node) : List Node → Option (Node × List Node)
  | [] => none
  | n :: post =>
    if n.process_id = process_id then
      merge temp ({ n with process_id := UNUSED } :: post)
    else
      match release_at process_id n post with
      | none => none
      | some (n1, post1) => some (temp, n1 :: post1)

/-- The function `release_memory` (lines 393-412). -/
def release_memory (m : Mem) (process_id : String) : Option (Outcome × Mem) :=
  match found_node process_id m.nodes with
  | none => some (Outcome.unknownOwner, m)
  | some n =>
    let head1 : Node :=
      { m.head with available_space := m.head.available_space + n.available_space }
    match release_at process_id head1 m.nodes with
    | none => none
    | some (head2, nodes2) => some (Outcome.ok, { m with head := head2, nodes := nodes2 })

/-- The condition of the `if` in the loop of `compact` (lines 426-427), for the
cursor `temp`, the block `a` after it, and the chain `rs` after `a`. -/
def compact_test (temp a : Node) (rs : List Node) : Bool :=
  (a.process_id = UNUSED ∧ rs ≠ []) ∨ (a.process_id ≠ UNUSED ∧ temp.process_id = UNUSED)

theorem merge_second_length (temp : Node) (rest : List Node) (t : Node) (r : List Node)
    (h : merge_second temp rest = some (t, r)) : r.length ≤ rest.length := by
  unfold merge_second at h
  split at h
  · cases rest with
    | nil => simp at h
    | cons x xs =>
      simp only at h
      split at h <;> simp at h <;> obtain ⟨-, rfl⟩ := h <;> simp
  · simp at h
    obtain ⟨-, rfl⟩ := h
    simp

theorem merge_first_length (temp : Node) (rest : List Node) (t : Node) (r : List Node)
    (h : merge_first temp rest = some (t, r)) : r.length ≤ rest.length := by
  unfold merge_first at h
  split at h
  · cases rest with
    | nil => simp at h
    | cons x xs =>
      simp at h
      obtain ⟨-, rfl⟩ := h
      simp
  · match rest, h with
    | [r], h => simp at h; obtain ⟨-, rfl⟩ := h; simp
    | r :: r2 :: rs, h =>
      simp only at h
      split at h <;> simp at h <;> obtain ⟨-, rfl⟩ := h <;> simp

theorem merge_length (temp : Node) (rest : List Node) (t : Node) (r : List Node)
    (h : merge temp rest = some (t, r)) : r.length ≤ rest.length := by
  unfold merge at h
  split at h
  · simp at h
  · rename_i t1 r1 h1
    exact le_trans (merge_second_length _ _ _ _ h) (merge_first_length _ _ _ _ h1)

theorem swap_nodes_length (l r : List Node) (h : swap_nodes l = some r) :
    r.length = l.length := by
  match l, h with
  | a :: b :: rs, h =>
    simp only [swap_nodes, Option.some.injEq] at h
    subst h
    simp

/-- The loop of `compact` (lines 422-442) from the cursor `temp` with the chain
`rest` after it: the result is `temp` and the final chain after it. The number
of blocks after the cursor decreases at every iteration. -/
def compact_loop (temp : Node) (rest : List Node) : Option (Node × List Node) :=
  match rest with
  | [] => some (temp, [])
  | a :: rs =>
    if compact_test temp a rs then
      match hs : swap_nodes (a :: rs) with
      | some (b :: rest1) =>
        match h : merge b rest1 with
        | none => none
        | some (b1, rest2) =>
          match compact_loop b1 rest2 with
          | none => none
          | some (b2, final) => some (temp, b2 :: final)
      | _ => none
    else
      match compact_loop a rs with
      | none => none
      | some (a1, final) => some (temp, a1 :: final)
termination_by rest.length
decreasing_by
  · have h1 := swap_nodes_length _ _ hs
    have h2 := merge_length _ _ _ _ h
    simp only [List.length_cons] at h1 ⊢
    omega
  · simp

/-- The function `compact` (lines 418-443). -/
def compact (m : Mem) : Option Mem :=
  match compact_loop m.head m.nodes with
  | none => none
  | some (head1, nodes1) => some { m with head := head1, nodes := nodes1 }

/-- The state of `request_memory` after a successful placement in the block `n`
that follows the blocks `pre` and precedes the blocks `post`. -/
def placed (m : Mem) (owner : String) (size : Int) (pre : List Node) (n : Node)
    (post : List Node) : Mem :=
  { m with head := { m.head with available_space := m.head.available_space - size },
           nodes := pre ++ place owner size m.last_address_space n post }

/-! ## Predicates of the specification -/

/-- The sum of `available_space` over the blocks labelled unused. -/
def free_sum : List Node → Int
  | [] => 0
  | n :: rest => (if n.process_id = UNUSED then n.available_space else 0) + free_sum rest

/-- Coverage: the first block starts at 0, every block ends one address before
the next one starts, and the last block ends at `total - 1`. -/
def Coverage (total : Int) (l : List Node) : Prop :=
  l.head?.map (fun n => n.start_address) = some 0 ∧
  l.Chain' (fun a b => a.end_address + 1 = b.start_address) ∧
  l.getLast?.map (fun n => n.end_address) = some (total - 1)

/-- Two consecutive blocks are not both unused. -/
def NotBothFree (a b : Node) : Prop :=
  ¬ (a.process_id = UNUSED ∧ b.process_id = UNUSED)

instance (a b : Node) : Decidable (NotBothFree a b) :=
  inferInstanceAs (Decidable (¬ _))

/-- No two consecutive blocks of the chain are both unused. -/
def NoAdjacentFree (l : List Node) : Prop :=
  l.Chain' NotBothFree

/-- The (owner, capacity) pairs of the blocks, in chain order. -/
def caps (l : List Node) : List (String × Int) :=
  l.map (fun n => (n.process_id, n.available_space))

/-- The owner labels of the allocated blocks, in chain order. -/
def owners (l : List Node) : List String :=
  (l.map (fun n => n.process_id)).filter (fun p => p ≠ UNUSED)

/-- No two allocated blocks carry the same owner label. -/
def OwnersUnique (l : List Node) : Prop :=
  (owners l).Nodup

/-- The states reachable from the initial partition of `main` for the total
size `total` by calls of `request_memory` (with a size satisfying `okSize`),
of `release_memory` (with an owner satisfying `okOwner`) and of `compact` that
return. -/
inductive Reach (okSize : Int → Prop) (okOwner : String → Prop) (total : Int) : Mem → Prop where
  | init : Reach okSize okOwner total (init total)
  | request (m : Mem) (process_id : String) (space_requested : Int) (algo : String) :
      Reach okSize okOwner total m → okSize space_requested →
      Reach okSize okOwner total (request_memory m process_id space_requested algo).2
  | release (m : Mem) (process_id : String) (o : Outcome) (m1 : Mem) :
      Reach okSize okOwner total m → okOwner process_id →
      release_memory m process_id = some (o, m1) → Reach okSize okOwner total m1
  | compact (m m1 : Mem) :
      Reach okSize okOwner total m → compact m = some m1 → Reach okSize okOwner total m1

/-! ## Lemmas on the placement loops -/

theorem find_process_eq_false_iff (process_id : String) (l : List Node) :
    find_process process_id l = false ↔ ∀ n ∈ l, n.process_id ≠ process_id := by
  induction l with
  | nil => simp [find_process]
  | cons a l ih =>
    unfold find_process
    by_cases h : a.process_id = process_id
    · simp [h]
    · simp [h, ih]

theorem find_process_eq_true_iff (process_id : String) (l : List Node) :
    find_process process_id l = true ↔ ∃ n ∈ l, n.process_id = process_id := by
  rw [← Bool.not_eq_false, find_process_eq_false_iff]
  push_neg
  rfl

theorem place_scan_eq_none (test : Node → Bool) (process_id : String) (size last : Int)
    (l : List Node) (h : ∀ n ∈ l, test n = false) :
    place_scan test process_id size last l = none := by
  induction l with
  | nil => rfl
  | cons a l ih =>
    have ha : test a = false := h a (List.mem_cons_self _ _)
    have hl : ∀ n ∈ l, test n = false := fun n hn => h n (List.mem_cons_of_mem _ hn)
    simp [place_scan, ha, ih hl]

theorem place_scan_eq_some (test : Node → Bool) (process_id : String) (size last : Int)
    (l : List Node) (h : ∃ n ∈ l, test n = true) :
    ∃ pre n post, l = pre ++ n :: post ∧ test n = true ∧ (∀ x ∈ pre, test x = false) ∧
      place_scan test process_id size last l =
        some (pre ++ place process_id size last n post) := by
  induction l with
  | nil => simp at h
  | cons a l ih =>
    by_cases ha : test a = true
    · exact ⟨[], a, l, rfl, ha, by simp, by simp [place_scan, ha]⟩
    · have hl : ∃ n ∈ l, test n = true := by
        obtain ⟨n, hn, ht⟩ := h
        rcases List.mem_cons.mp hn with rfl | hn
        · exact absurd ht ha
        · exact ⟨n, hn, ht⟩
      obtain ⟨pre, n, post, hsplit, hn, hpre, hscan⟩ := ih hl
      refine ⟨a :: pre, n, post, by simp [hsplit], hn, ?_, ?_⟩
      · intro x hx
        rcases List.mem_cons.mp hx with rfl | hx
        · simpa using ha
        · exact hpre x hx
      · simp [place_scan, ha, hscan]

theorem create_node_head (space_requested left_over last : Int) (n : Node)
    (post : List Node) :
    (create_node space_requested left_over last n post).head? =
      some { n with available_space := space_requested } := by
  unfold create_node
  cases post with
  | nil => rfl
  | cons p ps =>
    simp only
    split_ifs <;> rfl

theorem smallest_space_attained (size : Int) (l : List Node) (acc : Int) :
    smallest_space size l acc = acc ∨
      ∃ n ∈ l, fits size n = true ∧ n.available_space = smallest_space size l acc := by
  induction l generalizing acc with
  | nil => simp [smallest_space]
  | cons a l ih =>
    unfold smallest_space
    split
    · rename_i hfit
      split
      · rcases ih a.available_space with h | ⟨n, hn, hf, he⟩
        · exact Or.inr ⟨a, List.mem_cons_self _ _, hfit, h.symm⟩
        · exact Or.inr ⟨n, List.mem_cons_of_mem _ hn, hf, he⟩
      · rcases ih acc with h | ⟨n, hn, hf, he⟩
        · exact Or.inl h
        · exact Or.inr ⟨n, List.mem_cons_of_mem _ hn, hf, he⟩
    · rcases ih acc with h | ⟨n, hn, hf, he⟩
      · exact Or.inl h
      · exact Or.inr ⟨n, List.mem_cons_of_mem _ hn, hf, he⟩

theorem largest_space_attained (size : Int) (l : List Node) (acc : Int) :
    largest_space size l acc = acc ∨
      ∃ n ∈ l, fits size n = true ∧ n.available_space = largest_space size l acc := by
  induction l generalizing acc with
  | nil => simp [largest_space]
  | cons a l ih =>
    unfold largest_space
    split
    · rename_i hfit
      split
      · rcases ih a.available_space with h | ⟨n, hn, hf, he⟩
        · exact Or.inr ⟨a, List.mem_cons_self _ _, hfit, h.symm⟩
        · exact Or.inr ⟨n, List.mem_cons_of_mem _ hn, hf, he⟩
      · rcases ih acc with h | ⟨n, hn, hf, he⟩
        · exact Or.inl h
        · exact Or.inr ⟨n, List.mem_cons_of_mem _ hn, hf, he⟩
    · rcases ih acc with h | ⟨n, hn, hf, he⟩
      · exact Or.inl h
      · exact Or.inr ⟨n, List.mem_cons_of_mem _ hn, hf, he⟩

theorem fits_iff (size : Int) (n : Node) :
    fits size n = true ↔ n.process_id = UNUSED ∧ size ≤ n.available_space := by
  simp [fits]

/-! ## The shape of the chain after each operation -/

theorem place_scan_split (test : Node → Bool) (process_id : String) (size last : Int)
    (l r : List Node) (h : place_scan test process_id size last l = some r) :
    ∃ pre n post, l = pre ++ n :: post ∧ test n = true ∧ (∀ x ∈ pre, test x = false) ∧
      r = pre ++ place process_id size last n post := by
  by_cases hex : ∃ n ∈ l, test n = true
  · obtain ⟨pre, n, post, h1, h2, h3, h4⟩ :=
      place_scan_eq_some test process_id size last l hex
    rw [h] at h4
    exact ⟨pre, n, post, h1, h2, h3, Option.some.inj h4⟩
  · have hnone : ∀ n ∈ l, test n = false := by
      intro n hn
      by_contra hc
      exact hex ⟨n, hn, by simpa using hc⟩
    rw [place_scan_eq_none test process_id size last l hnone] at h
    exact Option.noConfusion h

theorem finish_request_cases (m : Mem) (size : Int) (r : Option (List Node)) :
    (finish_request m size r).2 = m ∨
      ∃ ns, r = some ns ∧ finish_request m size r =
        (Outcome.ok, { m with head := { m.head with
                                        available_space := m.head.available_space - size },
                              nodes := ns }) := by
  cases r with
  | none => exact Or.inl rfl
  | some ns => exact Or.inr ⟨ns, rfl, rfl⟩

/-- Every call of `request_memory` either returns the state it was given, or it
chose an unused block `n` of the chain, for an owner that labels no block, and
returns the state `placed`. -/
theorem request_memory_cases (m : Mem) (owner : String) (size : Int) (algo : String) :
    (request_memory m owner size algo).2 = m ∨
      ∃ pre n post, m.nodes = pre ++ n :: post ∧ n.process_id = UNUSED ∧
        (∀ x ∈ m.nodes, x.process_id ≠ owner) ∧
        request_memory m owner size algo = (Outcome.ok, placed m owner size pre n post) := by
  unfold request_memory
  split
  · exact Or.inl rfl
  · rename_i hfind
    have hnew : ∀ x ∈ m.nodes, x.process_id ≠ owner :=
      (find_process_eq_false_iff owner m.nodes).mp (by simpa using hfind)
    have key : ∀ test : Node → Bool, (∀ n, test n = true → n.process_id = UNUSED) →
        (finish_request m size
            (place_scan test owner size m.last_address_space m.nodes)).2 = m ∨
          ∃ pre n post, m.nodes = pre ++ n :: post ∧ n.process_id = UNUSED ∧
            (∀ x ∈ m.nodes, x.process_id ≠ owner) ∧
            finish_request m size (place_scan test owner size m.last_address_space m.nodes) =
              (Outcome.ok, placed m owner size pre n post) := by
      intro test htest
      rcases finish_request_cases m size
        (place_scan test owner size m.last_address_space m.nodes) with h | ⟨ns, h1, h2⟩
      · exact Or.inl h
      · obtain ⟨pre, n, post, hs, ht, -, hr⟩ := place_scan_split _ _ _ _ _ _ h1
        refine Or.inr ⟨pre, n, post, hs, htest n ht, hnew, ?_⟩
        rw [h2, hr]
        rfl
    split
    · exact key _ (fun n hn => by simp only [decide_eq_true_eq] at hn; exact hn.1)
    · split
      · exact key _ (fun n hn => by simp only [decide_eq_true_eq] at hn; exact hn.1)
      · split
        · exact key _ (fun n hn => ((fits_iff size n).mp hn).1)
        · exact Or.inl rfl

theorem shift_addresses_pids (temp : Node) (l : List Node) :
    (shift_addresses temp l).map (fun n => n.process_id) = l.map (fun n => n.process_id) := by
  induction l generalizing temp with
  | nil => rfl
  | cons a l ih =>
    cases l with
    | nil => rfl
    | cons b l =>
      simp only [shift_addresses, List.map_cons, List.cons.injEq, true_and]
      exact ih _

theorem create_node_pids (space_requested left_over last : Int) (n : Node)
    (post : List Node) :
    (create_node space_requested left_over last n post).map (fun n => n.process_id) =
      n.process_id :: UNUSED :: post.map (fun n => n.process_id) := by
  unfold create_node
  cases post with
  | nil => rfl
  | cons p ps =>
    simp only
    split_ifs <;> simp [shift_addresses_pids]

/-- The labels after a placement: the owner, then `Unused` when a remainder is
split off, then the labels of the blocks that followed. -/
theorem place_pids (process_id : String) (size last : Int) (n : Node) (post : List Node) :
    (place process_id size last n post).map (fun n => n.process_id) =
      if n.available_space - size > 0
      then process_id :: UNUSED :: post.map (fun n => n.process_id)
      else process_id :: post.map (fun n => n.process_id) := by
  unfold place
  simp only
  split
  · rw [create_node_pids]
  · rfl

theorem merge_first_pids (temp : Node) (rest : List Node) (t : Node) (r : List Node)
    (h : merge_first temp rest = some (t, r)) :
    t.process_id = temp.process_id ∧
      (r.map (fun n => n.process_id)).Sublist (rest.map (fun n => n.process_id)) := by
  unfold merge_first at h
  split at h
  · cases rest with
    | nil => simp at h
    | cons x xs =>
      simp only [Option.some.injEq, Prod.mk.injEq] at h
      obtain ⟨rfl, rfl⟩ := h
      exact ⟨rfl, by simp⟩
  · match rest, h with
    | [r], h =>
      simp only [Option.some.injEq, Prod.mk.injEq] at h
      obtain ⟨rfl, rfl⟩ := h
      exact ⟨rfl, List.Sublist.refl _⟩
    | r1 :: r2 :: rs, h =>
      simp only at h
      split at h
      · simp only [Option.some.injEq, Prod.mk.injEq] at h
        obtain ⟨rfl, rfl⟩ := h
        exact ⟨rfl, by simp⟩
      · simp only [Option.some.injEq, Prod.mk.injEq] at h
        obtain ⟨rfl, rfl⟩ := h
        exact ⟨rfl, List.Sublist.refl _⟩

theorem merge_second_pids (temp : Node) (rest : List Node) (t : Node) (r : List Node)
    (h : merge_second temp rest = some (t, r)) :
    t.process_id = temp.process_id ∧
      (r.map (fun n => n.process_id)).Sublist (rest.map (fun n => n.process_id)) := by
  unfold merge_second at h
  split at h
  · cases rest with
    | nil => simp at h
    | cons x xs =>
      simp only at h
      split at h
      · simp only [Option.some.injEq, Prod.mk.injEq] at h
        obtain ⟨rfl, rfl⟩ := h
        exact ⟨rfl, by simp⟩
      · simp only [Option.some.injEq, Prod.mk.injEq] at h
        obtain ⟨rfl, rfl⟩ := h
        exact ⟨rfl, List.Sublist.refl _⟩
  · simp only [Option.some.injEq, Prod.mk.injEq] at h
    obtain ⟨rfl, rfl⟩ := h
    exact ⟨rfl, List.Sublist.refl _⟩

/-- The function `merge` keeps the label of the cursor and only removes blocks
from the chain after it. -/
theorem merge_pids (temp : Node) (rest : List Node) (t : Node) (r : List Node)
    (h : merge temp rest = some (t, r)) :
    t.process_id = temp.process_id ∧
      (r.map (fun n => n.process_id)).Sublist (rest.map (fun n => n.process_id)) := by
  unfold merge at h
  split at h
  · simp at h
  · rename_i t1 r1 h1
    have a := merge_first_pids _ _ _ _ h1
    have b := merge_second_pids _ _ _ _ h
    exact ⟨b.1.trans a.1, b.2.trans a.2⟩

theorem swap_nodes_pids (l r : List Node) (h : swap_nodes l = some r) :
    (r.map (fun n => n.process_id)).Perm (l.map (fun n => n.process_id)) := by
  match l, h with
  | a :: b :: rs, h =>
    simp only [swap_nodes, Option.some.injEq] at h
    subst h
    exact List.Perm.swap _ _ _

theorem compact_loop_nil (temp : Node) : compact_loop temp [] = some (temp, []) := by
  rw [compact_loop]

/-- One iteration of the loop of `compact`, as an equation. -/
theorem compact_loop_cons (temp a : Node) (rs : List Node) :
    compact_loop temp (a :: rs) =
      if compact_test temp a rs = true then
        match swap_nodes (a :: rs) with
        | some (b :: rest1) =>
          match merge b rest1 with
          | none => none
          | some (b1, rest2) =>
            match compact_loop b1 rest2 with
            | none => none
            | some (b2, final) => some (temp, b2 :: final)
        | _ => none
      else
        match compact_loop a rs with
        | none => none
        | some (a1, final) => some (temp, a1 :: final) := by
  rw [compact_loop]
  split
  · cases hs : swap_nodes (a :: rs) with
    | none => simp
    | some l =>
      cases l with
      | nil => simp
      | cons b rest1 =>
        simp only
        cases hm : merge b rest1 with
        | none => simp
        | some p => simp
  · rfl

/-! ## Coverage (C1) -/

/-- The state after `RQ P1 1 F` and `RQ P2 1 F` on a memory of total size 3. -/
def exact_fit_state : Mem :=
  (request_memory (request_memory (init 3) "P1" 1 "F").2 "P2" 1 "F").2

/-- The state after `RQ P1 10 F`, `RQ P2 10 F`, `RQ P3 10 F`, `RL P1`, `RL P2`
on a memory of total size 100, when it exists. -/
def merged_hole_state : Option Mem :=
  let m3 := (request_memory (request_memory (request_memory (init 100)
    "P1" 10 "F").2 "P2" 10 "F").2 "P3" 10 "F").2
  match release_memory m3 "P1" with
  | some (_, m4) =>
    match release_memory m4 "P2" with
    | some (_, m5) => some m5
    | none => none
  | none => none

/-- C1 (coverage invariant), failing input: with total size 3, after
`RQ P1 1 F` and `RQ P2 1 F` (both of size 1 > 0, first fit) the chain is
`[0:1] P1, [2:3] P2`: the state is reachable and its last block ends at
address 3, not at `total - 1 = 2`, so coverage does not hold. -/
theorem coverage_fails_after_exact_fit :
    Reach (fun s => 0 < s) (fun _ => True) 3 exact_fit_state ∧
    exact_fit_state.nodes =
      [{ available_space := 1, start_address := 0, end_address := 1, process_id := "P1" },
       { available_space := 1, start_address := 2, end_address := 3, process_id := "P2" }] ∧
    ¬ Coverage 3 exact_fit_state.nodes := by
  have hnodes : exact_fit_state.nodes =
      [{ available_space := 1, start_address := 0, end_address := 1, process_id := "P1" },
       { available_space := 1, start_address := 2, end_address := 3, process_id := "P2" }] := by
    decide
  refine ⟨?_, hnodes, ?_⟩
  · exact Reach.request _ "P2" 1 "F"
      (Reach.request _ "P1" 1 "F" Reach.init (by decide)) (by decide)
  · rw [hnodes]
    simp [Coverage]

/-- A second way in which coverage is lost: after two neighbouring releases
merged into one hole `[0:21]` of capacity 20, `RQ P4 20 F` fills it exactly and
sets its end to 20, leaving address 21 between `P4` and `P3` uncovered. -/
theorem coverage_gap_after_merged_hole :
    merged_hole_state.map (fun m => (request_memory m "P4" 20 "F").2.nodes) =
      some [{ available_space := 20, start_address := 0, end_address := 20, process_id := "P4" },
            { available_space := 10, start_address := 22, end_address := 32, process_id := "P3" },
            { available_space := 69, start_address := 33, end_address := 99,
              process_id := "Unused" }] := by
  decide

/-! ## The counter of free bytes (C2) and unknown owners (C10) -/

/-- C2 (free_total consistency), failing input: on the initial partition of
total size 100, `RL Unused` is accepted, because `find_process` matches the
free block itself; the counter in `head` becomes 198 while the only free block
still has capacity 99. The state is reachable and the counter differs from the
sum of the free capacities. -/
theorem free_total_wrong_after_release_unused :
    release_memory (init 100) "Unused" =
      some (Outcome.ok, { init 100 with
        head := { (init 100).head with available_space := 198 } }) ∧
    Reach (fun s => 0 < s) (fun _ => True) 100
      { init 100 with head := { (init 100).head with available_space := 198 } } ∧
    free_sum (init 100).nodes = 99 := by
  refine ⟨by decide, ?_, by decide⟩
  exact Reach.release (init 100) "Unused" Outcome.ok _ Reach.init trivial (by decide)

theorem found_node_isSome (process_id : String) (l : List Node) :
    (found_node process_id l).isSome = find_process process_id l := by
  induction l with
  | nil => rfl
  | cons a l ih =>
    unfold found_node find_process
    split
    · rfl
    · exact ih

/-- What `release_memory` does get right about unknown owners: for a label that
no block of the chain carries, allocated or unused, it reports the unknown
owner and returns the state it was given. -/
theorem release_memory_of_absent (m : Mem) (process_id : String)
    (h : ∀ n ∈ m.nodes, n.process_id ≠ process_id) :
    release_memory m process_id = some (Outcome.unknownOwner, m) := by
  have hfind := (find_process_eq_false_iff process_id m.nodes).mpr h
  have hnone : found_node process_id m.nodes = none := by
    rw [← found_node_isSome] at hfind
    cases hf : found_node process_id m.nodes with
    | none => rfl
    | some n => simp [hf] at hfind
  unfold release_memory
  rw [hnone]

/-- C10 (unknown owner rejection), failing input: in the state after
`RQ P1 30 F` on a memory of total size 100 no allocated block is labelled
`Unused`, yet `RL Unused` does not report an unknown owner: it returns without
a message and raises the counter of free bytes from 69 to 138. -/
theorem release_unused_not_rejected :
    (∀ n ∈ (request_memory (init 100) "P1" 30 "F").2.nodes,
      n.process_id ≠ UNUSED → n.process_id ≠ "Unused") ∧
    (request_memory (init 100) "P1" 30 "F").2.head.available_space = 69 ∧
    (release_memory (request_memory (init 100) "P1" 30 "F").2 "Unused").map
      (fun r => (r.1, r.2.head.available_space, r.2.nodes)) =
      some (Outcome.ok, 138, (request_memory (init 100) "P1" 30 "F").2.nodes) := by
  refine ⟨by decide, by decide, by decide⟩

/-! ## Placement strategies (C5, C6, C7), out of space (C8), duplicate owners (C9) -/

/-- A partition with three holes of capacities 10, 4 and 20 at increasing
addresses, separated by the blocks of `A` and `B`; it is the state after
`RQ H1 10 F`, `RQ A 5 F`, `RQ H2 4 F`, `RQ B 5 F`, `RL H1`, `RL H2` on a memory
of total size 45. -/
def holes_example : Mem :=
  { head := { available_space := 34, start_address := -1, end_address := -1,
              process_id := "Dummy Node" },
    nodes :=
      [{ available_space := 10, start_address := 0, end_address := 10, process_id := UNUSED },
       { available_space := 5, start_address := 11, end_address := 16, process_id := "A" },
       { available_space := 4, start_address := 17, end_address := 21, process_id := UNUSED },
       { available_space := 5, start_address := 22, end_address := 27, process_id := "B" },
       { available_space := 20, start_address := 28, end_address := 44, process_id := UNUSED }],
    last_address_space := 44 }

/-- On the example with holes of capacities 10, 4, 20, first fit of size 4 picks
the hole of capacity 10 at address 0. -/
theorem first_fit_example :
    (request_memory holes_example "P" 4 "F").2.nodes.map
        (fun n => (n.process_id, n.available_space)) =
      [("P", 4), (UNUSED, 6), ("A", 5), (UNUSED, 4), ("B", 5), (UNUSED, 20)] := by
  decide

/-- On the example with holes of capacities 10, 4, 20, best fit of size 4 picks
the hole of capacity 4. -/
theorem best_fit_example :
    (request_memory holes_example "P" 4 "B").2.nodes.map
        (fun n => (n.process_id, n.available_space)) =
      [(UNUSED, 10), ("A", 5), ("P", 4), ("B", 5), (UNUSED, 20)] := by
  decide

/-- On the example with holes of capacities 10, 4, 20, worst fit of size 4
picks the hole of capacity 20. -/
theorem worst_fit_example :
    (request_memory holes_example "P" 4 "W").2.nodes.map
        (fun n => (n.process_id, n.available_space)) =
      [(UNUSED, 10), ("A", 5), (UNUSED, 4), ("B", 5), ("P", 4), (UNUSED, 16)] := by
  decide

theorem place_mem (process_id : String) (size last : Int) (n : Node) (post : List Node) :
    ∃ x ∈ place process_id size last n post, x.process_id = process_id := by
  unfold place
  simp only
  split
  · have h := create_node_head size (n.available_space - size) last
      { n with process_id := process_id, end_address := n.start_address + size } post
    refine ⟨_, List.mem_of_mem_head? h, rfl⟩
  · exact ⟨_, List.mem_cons_self _ _, rfl⟩

theorem place_scan_mem (test : Node → Bool) (process_id : String) (size last : Int)
    (l r : List Node) (h : place_scan test process_id size last l = some r) :
    ∃ x ∈ r, x.process_id = process_id := by
  induction l generalizing r with
  | nil => simp [place_scan] at h
  | cons a l ih =>
    unfold place_scan at h
    split at h
    · simp only [Option.some.injEq] at h
      subst h
      exact place_mem _ _ _ _ _
    · cases hl : place_scan test process_id size last l with
      | none => simp [hl] at h
      | some r1 =>
        simp only [hl, Option.map_some', Option.some.injEq] at h
        subst h
        obtain ⟨x, hx, hp⟩ := ih r1 hl
        exact ⟨x, List.mem_cons_of_mem _ hx, hp⟩

theorem finish_request_ok (m m1 : Mem) (size : Int) (r : Option (List Node))
    (h : finish_request m size r = (Outcome.ok, m1)) : r = some m1.nodes := by
  cases r with
  | none => simp [finish_request] at h
  | some ns =>
    simp only [finish_request, Prod.mk.injEq, true_and] at h
    subst h
    rfl

theorem request_memory_ok_mem (m m1 : Mem) (owner : String) (size : Int) (algo : String)
    (h : request_memory m owner size algo = (Outcome.ok, m1)) :
    ∃ x ∈ m1.nodes, x.process_id = owner := by
  unfold request_memory at h
  split at h
  · simp at h
  · split at h
    · exact place_scan_mem _ _ _ _ _ _ (finish_request_ok _ _ _ _ h)
    · split at h
      · exact place_scan_mem _ _ _ _ _ _ (finish_request_ok _ _ _ _ h)
      · split at h
        · exact place_scan_mem _ _ _ _ _ _ (finish_request_ok _ _ _ _ h)
        · simp at h

/-- C9 (duplicate owner rejection): in every partition in which some allocated
block is labelled with the owner, and in particular in any state `m` returned by
a successful `request_memory` for that owner, `request_memory` for the same
owner with any size and any strategy code reports the duplicate-owner outcome
and returns the state it was given; the result does not depend on the size or
on the strategy, no placement function being called. -/
theorem duplicate_owner_rejected (m : Mem) (owner : String) (size : Int) (algo : String)
    (h : (∃ n ∈ m.nodes, n.process_id ≠ UNUSED ∧ n.process_id = owner) ∨
         (∃ m0 size0 algo0, request_memory m0 owner size0 algo0 = (Outcome.ok, m))) :
    request_memory m owner size algo = (Outcome.duplicateOwner, m) := by
  have hfound : find_process owner m.nodes = true := by
    rw [find_process_eq_true_iff]
    rcases h with ⟨n, hn, -, he⟩ | ⟨m0, size0, algo0, h0⟩
    · exact ⟨n, hn, he⟩
    · exact request_memory_ok_mem m0 m owner size0 algo0 h0
  unfold request_memory
  rw [if_pos hfound]

/-- Witness of C9: `RQ P1 30 F` on a memory of total size 100 succeeds, and a
second `RQ P1 20 B` is rejected without any change. -/
theorem duplicate_owner_rejected_witness :
    (∃ m0 size0 algo0, request_memory m0 "P1" size0 algo0 =
      (Outcome.ok, (request_memory (init 100) "P1" 30 "F").2)) ∧
    request_memory (request_memory (init 100) "P1" 30 "F").2 "P1" 20 "B" =
      (Outcome.duplicateOwner, (request_memory (init 100) "P1" 30 "F").2) :=
  ⟨⟨init 100, 30, "F", by decide⟩,
    duplicate_owner_rejected (request_memory (init 100) "P1" 30 "F").2 "P1" 20 "B"
      (Or.inr ⟨init 100, 30, "F", by decide⟩)⟩

/-! ## No two adjacent unused blocks (C3) -/

theorem notBothFree_of_left (a b : Node) (h : a.process_id ≠ UNUSED) : NotBothFree a b :=
  fun hc => h hc.1

theorem notBothFree_of_right (a b : Node) (h : b.process_id ≠ UNUSED) : NotBothFree a b :=
  fun hc => h hc.2

theorem chain_iff_labels (x : Node) (l : List Node) :
    List.Chain NotBothFree x l ↔
      List.Chain (fun a b : String => ¬ (a = UNUSED ∧ b = UNUSED)) x.process_id
        (l.map (fun n => n.process_id)) := by
  rw [List.chain_map]
  rfl

/-- Whether a chain has two adjacent unused blocks depends on the labels only. -/
theorem chain_congr (x y : Node) (l r : List Node) (hxy : y.process_id = x.process_id)
    (hlr : r.map (fun n => n.process_id) = l.map (fun n => n.process_id))
    (h : List.Chain NotBothFree x l) : List.Chain NotBothFree y r := by
  rw [chain_iff_labels] at h ⊢
  rw [hxy, hlr]
  exact h

theorem chain_of_allocated (x : Node) (l : List Node) (hx : x.process_id ≠ UNUSED)
    (h : List.Chain' NotBothFree l) : List.Chain NotBothFree x l := by
  cases l with
  | nil => exact List.Chain.nil
  | cons a l => exact List.Chain.cons (notBothFree_of_left _ _ hx) h

theorem chain_tail (x : Node) (l : List Node) (h : List.Chain NotBothFree x l) :
    List.Chain' NotBothFree l :=
  List.Chain'.tail (show List.Chain' NotBothFree (x :: l) from h)

theorem merge_free_last (temp n : Node) (ht : temp.process_id = UNUSED) :
    merge temp [n] = none := by
  simp [merge, merge_first, merge_second, ht]

theorem merge_free_free (temp n r0 : Node) (rs : List Node)
    (ht : temp.process_id = UNUSED) (hr : r0.process_id = UNUSED) :
    merge temp (n :: r0 :: rs) =
      some ({ temp with end_address := r0.end_address,
                        available_space :=
                          temp.available_space + n.available_space + r0.available_space },
            rs) := by
  simp [merge, merge_first, merge_second, ht, hr]

theorem merge_free_allocated (temp n r0 : Node) (rs : List Node)
    (ht : temp.process_id = UNUSED) (hr : r0.process_id ≠ UNUSED) :
    merge temp (n :: r0 :: rs) =
      some ({ temp with end_address := n.end_address,
                        available_space := temp.available_space + n.available_space },
            r0 :: rs) := by
  simp [merge, merge_first, merge_second, ht, hr]

theorem merge_allocated_last (temp n : Node) (ht : temp.process_id ≠ UNUSED) :
    merge temp [n] = some (temp, [n]) := by
  simp [merge, merge_first, merge_second, ht]

theorem merge_allocated_free (temp n r2 : Node) (rs : List Node)
    (ht : temp.process_id ≠ UNUSED) (hr : r2.process_id = UNUSED) :
    merge temp (n :: r2 :: rs) =
      some (temp, { r2 with start_address := n.start_address,
                            available_space := r2.available_space + n.available_space } ::
                  rs) := by
  simp [merge, merge_first, merge_second, ht, hr]

theorem merge_allocated_allocated (temp n r2 : Node) (rs : List Node)
    (ht : temp.process_id ≠ UNUSED) (hr : r2.process_id ≠ UNUSED) :
    merge temp (n :: r2 :: rs) = some (temp, n :: r2 :: rs) := by
  simp [merge, merge_first, merge_second, ht, hr]

/-- The two ways in which `release_memory` returns: the label was not found and
the state is unchanged, or the block `n` was found, its capacity added to the
counter, and `release_at` produced the new chain. -/
theorem release_memory_cases (m : Mem) (process_id : String) (o : Outcome) (m1 : Mem)
    (h : release_memory m process_id = some (o, m1)) :
    (found_node process_id m.nodes = none ∧ o = Outcome.unknownOwner ∧ m1 = m) ∨
      ∃ n head2 nodes2, found_node process_id m.nodes = some n ∧
        release_at process_id
          { m.head with available_space := m.head.available_space + n.available_space }
          m.nodes = some (head2, nodes2) ∧
        o = Outcome.ok ∧ m1 = { m with head := head2, nodes := nodes2 } := by
  unfold release_memory at h
  cases hf : found_node process_id m.nodes with
  | none =>
    simp only [hf, Option.some.injEq, Prod.mk.injEq] at h
    exact Or.inl ⟨rfl, h.1.symm, h.2.symm⟩
  | some n =>
    simp only [hf] at h
    cases hrel : release_at process_id
        { m.head with available_space := m.head.available_space + n.available_space }
        m.nodes with
    | none => simp [hrel] at h
    | some p =>
      obtain ⟨head2, nodes2⟩ := p
      simp only [hrel, Option.some.injEq, Prod.mk.injEq] at h
      exact Or.inr ⟨n, head2, nodes2, rfl, hrel, h.1.symm, h.2.symm⟩

theorem place_chain (owner : String) (size last : Int) (x n : Node) (post : List Node)
    (howner : owner ≠ UNUSED) (hn : n.process_id = UNUSED)
    (h : List.Chain NotBothFree n post) :
    List.Chain NotBothFree x (place owner size last n post) := by
  rw [chain_iff_labels, place_pids]
  have hpost : List.Chain' NotBothFree post := chain_tail n post h
  have h1 := (chain_iff_labels _ _).mp
    (chain_of_allocated { n with process_id := owner } post howner hpost)
  rw [chain_iff_labels, hn] at h
  split
  · exact List.Chain.cons (fun hc => howner hc.2)
      (List.Chain.cons (fun hc => howner hc.1) h)
  · exact List.Chain.cons (fun hc => howner hc.2) h1

theorem placed_chain (owner : String) (size last : Int) (pre : List Node) (n : Node)
    (post : List Node) (howner : owner ≠ UNUSED) (hn : n.process_id = UNUSED) (x : Node)
    (h : List.Chain NotBothFree x (pre ++ n :: post)) :
    List.Chain NotBothFree x (pre ++ place owner size last n post) := by
  induction pre generalizing x with
  | nil =>
    simp only [List.nil_append] at h ⊢
    rw [List.chain_cons] at h
    exact place_chain owner size last x n post howner hn h.2
  | cons a pre ih =>
    simp only [List.cons_append, List.chain_cons] at h ⊢
    exact ⟨h.1, ih a h.2⟩

theorem merge_chain (temp n : Node) (post : List Node) (t : Node) (r : List Node)
    (hpost : List.Chain' NotBothFree post)
    (h : merge temp (n :: post) = some (t, r)) : List.Chain NotBothFree t r := by
  by_cases ht : temp.process_id = UNUSED
  · cases post with
    | nil => simp [merge_free_last temp n ht] at h
    | cons r0 rs =>
      by_cases hr0 : r0.process_id = UNUSED
      · rw [merge_free_free temp n r0 rs ht hr0] at h
        simp only [Option.some.injEq, Prod.mk.injEq] at h
        obtain ⟨rfl, rfl⟩ := h
        exact chain_congr r0 _ rs rs (hr0.trans ht.symm).symm rfl hpost
      · rw [merge_free_allocated temp n r0 rs ht hr0] at h
        simp only [Option.some.injEq, Prod.mk.injEq] at h
        obtain ⟨rfl, rfl⟩ := h
        exact List.Chain.cons (notBothFree_of_right _ _ hr0) hpost
  · cases post with
    | nil =>
      rw [merge_allocated_last temp n ht] at h
      simp only [Option.some.injEq, Prod.mk.injEq] at h
      obtain ⟨rfl, rfl⟩ := h
      exact List.Chain.cons (notBothFree_of_left _ _ ht) List.Chain.nil
    | cons r2 rs =>
      by_cases hr2 : r2.process_id = UNUSED
      · rw [merge_allocated_free temp n r2 rs ht hr2] at h
        simp only [Option.some.injEq, Prod.mk.injEq] at h
        obtain ⟨rfl, rfl⟩ := h
        exact List.Chain.cons (notBothFree_of_left _ _ ht)
          (chain_congr r2 _ rs rs rfl rfl hpost)
      · rw [merge_allocated_allocated temp n r2 rs ht hr2] at h
        simp only [Option.some.injEq, Prod.mk.injEq] at h
        obtain ⟨rfl, rfl⟩ := h
        exact List.Chain.cons (notBothFree_of_left _ _ ht)
          (List.Chain.cons (notBothFree_of_right _ _ hr2) hpost)

theorem release_at_pid (process_id : String) (temp : Node) (l : List Node) (t : Node)
    (r : List Node) (h : release_at process_id temp l = some (t, r)) :
    t.process_id = temp.process_id := by
  cases l with
  | nil => simp [release_at] at h
  | cons n post =>
    unfold release_at at h
    split at h
    · exact (merge_pids _ _ _ _ h).1
    · split at h
      · simp at h
      · simp only [Option.some.injEq, Prod.mk.injEq] at h
        rw [h.1]

theorem release_at_chain (process_id : String) (temp : Node) (l : List Node) (t : Node)
    (r : List Node) (hc : List.Chain NotBothFree temp l)
    (h : release_at process_id temp l = some (t, r)) : List.Chain NotBothFree t r := by
  induction l generalizing temp t r with
  | nil => simp [release_at] at h
  | cons n post ih =>
    unfold release_at at h
    rw [List.chain_cons] at hc
    split at h
    · exact merge_chain temp _ post t r (chain_tail n post hc.2) h
    · split at h
      · simp at h
      · rename_i n1 post1 hrec
        simp only [Option.some.injEq, Prod.mk.injEq] at h
        obtain ⟨rfl, rfl⟩ := h
        have hpid := release_at_pid _ _ _ _ _ hrec
        have hch := ih n n1 post1 hc.2 hrec
        refine List.Chain.cons ?_ hch
        intro hcontra
        exact hc.1 ⟨hcontra.1, hpid ▸ hcontra.2⟩

theorem compact_loop_fst (temp : Node) (rest : List Node) (t : Node) (r : List Node)
    (h : compact_loop temp rest = some (t, r)) : t = temp := by
  cases rest with
  | nil =>
    rw [compact_loop_nil] at h
    simp only [Option.some.injEq, Prod.mk.injEq] at h
    exact h.1.symm
  | cons a rs =>
    rw [compact_loop_cons] at h
    split at h
    · split at h
      · split at h
        · simp at h
        · split at h
          · simp at h
          · simp only [Option.some.injEq, Prod.mk.injEq] at h
            exact h.1.symm
      · simp at h
    · split at h
      · simp at h
      · simp only [Option.some.injEq, Prod.mk.injEq] at h
        exact h.1.symm

theorem compact_loop_chain (k : Nat) (temp : Node) (rest : List Node) (t : Node)
    (r : List Node) (hk : rest.length ≤ k) (hc : List.Chain NotBothFree temp rest)
    (hlast : temp.process_id = UNUSED → rest = [])
    (h : compact_loop temp rest = some (t, r)) : List.Chain NotBothFree t r := by
  induction k generalizing temp rest t r with
  | zero =>
    have : rest = [] := List.length_eq_zero.mp (Nat.le_zero.mp hk)
    subst this
    rw [compact_loop_nil] at h
    simp only [Option.some.injEq, Prod.mk.injEq] at h
    obtain ⟨rfl, rfl⟩ := h
    exact List.Chain.nil
  | succ k ih =>
    cases rest with
    | nil =>
      rw [compact_loop_nil] at h
      simp only [Option.some.injEq, Prod.mk.injEq] at h
      obtain ⟨rfl, rfl⟩ := h
      exact List.Chain.nil
    | cons a rs =>
      have htemp : temp.process_id ≠ UNUSED := fun hu => List.cons_ne_nil _ _ (hlast hu)
      rw [List.chain_cons] at hc
      rw [compact_loop_cons] at h
      split at h
      · rename_i htest
        match rs, hk, hc, htest, h with
        | [], _, _, _, h => simp [swap_nodes] at h
        | b :: rs1, hk, hc, htest, h =>
          simp only [swap_nodes] at h
          split at h
          · simp at h
          · rename_i b1 rest2 hm
            split at h
            · simp at h
            · rename_i b2 final hrec
              simp only [Option.some.injEq, Prod.mk.injEq] at h
              obtain ⟨rfl, rfl⟩ := h
              have ha : a.process_id = UNUSED := by
                simp only [compact_test, decide_eq_true_eq] at htest
                rcases htest with h1 | h1
                · exact h1.1
                · exact absurd h1.2 htemp
              rw [List.chain_cons] at hc
              have hb : b.process_id ≠ UNUSED := fun hb => hc.2.1 ⟨ha, hb⟩
              have hmc : List.Chain NotBothFree b1 rest2 := by
                exact merge_chain _ _ _ _ _ (chain_tail b rs1 hc.2.2) hm
              have hb1 : b1.process_id ≠ UNUSED := by
                rw [(merge_pids _ _ _ _ hm).1]
                exact hb
              have hlen := merge_length _ _ _ _ hm
              simp only [List.length_cons] at hlen hk
              have hfin := ih b1 rest2 b2 final (by omega) hmc
                (fun hu => absurd hu hb1) hrec
              exact List.Chain.cons (notBothFree_of_left _ _ htemp) hfin
      · rename_i htest
        split at h
        · simp at h
        · rename_i a1 final hrec
          simp only [Option.some.injEq, Prod.mk.injEq] at h
          obtain ⟨rfl, rfl⟩ := h
          simp only [List.length_cons] at hk
          have hfin := ih a rs a1 final (by omega) hc.2 (by
            intro hu
            by_contra hne
            exact htest (by simp [compact_test, hu, hne])) hrec
          exact List.Chain.cons (notBothFree_of_left _ _ htemp) hfin

/-- The invariant behind C3: the dummy node is not labelled unused, and no two
neighbours of the chain that starts with it are both unused. -/
def ChainInv (m : Mem) : Prop :=
  m.head.process_id ≠ UNUSED ∧ List.Chain NotBothFree m.head m.nodes

theorem chainInv_init (total : Int) : ChainInv (init total) := by
  have hd : (init total).head.process_id ≠ UNUSED := by
    show "Dummy Node" ≠ UNUSED
    decide
  exact ⟨hd, List.Chain.cons (notBothFree_of_left _ _ hd) List.Chain.nil⟩

theorem chainInv_request (m : Mem) (owner : String) (size : Int) (algo : String)
    (h : ChainInv m) : ChainInv (request_memory m owner size algo).2 := by
  rcases request_memory_cases m owner size algo with h1 | ⟨pre, n, post, hs, hn, hnew, h1⟩
  · rw [h1]
    exact h
  · rw [h1]
    have howner : owner ≠ UNUSED := by
      intro hc
      exact hnew n (by rw [hs]; simp) (hn.trans hc.symm)
    have hc := h.2
    rw [hs] at hc
    exact ⟨h.1, chain_congr m.head _ _ _ rfl rfl
      (placed_chain owner size m.last_address_space pre n post howner hn m.head hc)⟩

theorem chainInv_release (m : Mem) (process_id : String) (o : Outcome) (m1 : Mem)
    (h : ChainInv m) (hr : release_memory m process_id = some (o, m1)) : ChainInv m1 := by
  rcases release_memory_cases m process_id o m1 hr with
    ⟨-, -, rfl⟩ | ⟨n, head2, nodes2, -, hrel, -, rfl⟩
  · exact h
  · have hpid := release_at_pid _ _ _ _ _ hrel
    refine ⟨?_, ?_⟩
    · show head2.process_id ≠ UNUSED
      rw [hpid]
      exact h.1
    · refine release_at_chain _ _ _ _ _ ?_ hrel
      exact chain_congr m.head _ _ _ rfl rfl h.2

theorem chainInv_compact (m m1 : Mem) (h : ChainInv m) (hc : compact m = some m1) :
    ChainInv m1 := by
  unfold compact at hc
  split at hc
  · simp at hc
  · rename_i head1 nodes1 hloop
    simp only [Option.some.injEq] at hc
    rw [← hc]
    have hfst := compact_loop_fst _ _ _ _ hloop
    refine ⟨by rw [hfst]; exact h.1, ?_⟩
    exact compact_loop_chain m.nodes.length m.head m.nodes head1 nodes1 le_rfl h.2
      (fun hu => absurd hu h.1) hloop

theorem chainInv_of_reach (okSize : Int → Prop) (okOwner : String → Prop) (total : Int)
    (m : Mem) (h : Reach okSize okOwner total m) : ChainInv m := by
  induction h with
  | init => exact chainInv_init total
  | request m owner size algo _ _ ih => exact chainInv_request m owner size algo ih
  | release m owner o m1 _ _ hr ih => exact chainInv_release m owner o m1 ih hr
  | compact m m1 _ hc ih => exact chainInv_compact m m1 ih hc

/-- C3 (no-adjacent-free invariant): in every state reachable from the initial
partition by calls of `request_memory` with a size > 0 (any owner, any strategy
code), of `release_memory` (any owner) and of `compact`, no two consecutive
blocks of the chain are both unused. -/
theorem no_adjacent_free_of_reach (total : Int) (m : Mem)
    (h : Reach (fun s => 0 < s) (fun _ => True) total m) : NoAdjacentFree m.nodes :=
  chain_tail m.head m.nodes (chainInv_of_reach _ _ total m h).2

/-- Witness of C3: the state after `RQ P1 30 F`, `RQ P2 20 B`, `RL P1` on a
memory of total size 100 is reachable and has no two adjacent unused blocks. -/
theorem no_adjacent_free_of_reach_witness :
    Reach (fun s => 0 < s) (fun _ => True) 100
      { head := { available_space := 79, start_address := -1, end_address := -1,
                  process_id := "Dummy Node" },
        nodes :=
          [{ available_space := 30, start_address := 0, end_address := 30,
             process_id := UNUSED },
           { available_space := 20, start_address := 31, end_address := 51,
             process_id := "P2" },
           { available_space := 49, start_address := 52, end_address := 99,
             process_id := UNUSED }],
        last_address_space := 99 } ∧
    NoAdjacentFree
      [{ available_space := 30, start_address := 0, end_address := 30,
         process_id := UNUSED },
       { available_space := 20, start_address := 31, end_address := 51,
         process_id := "P2" },
       { available_space := 49, start_address := 52, end_address := 99,
         process_id := UNUSED }] :=
  have hr : Reach (fun s => 0 < s) (fun _ => True) 100 _ :=
    Reach.release _ "P1" Outcome.ok
      { head := { available_space := 79, start_address := -1, end_address := -1,
                  process_id := "Dummy Node" },
        nodes :=
          [{ available_space := 30, start_address := 0, end_address := 30,
             process_id := UNUSED },
           { available_space := 20, start_address := 31, end_address := 51,
             process_id := "P2" },
           { available_space := 49, start_address := 52, end_address := 99,
             process_id := UNUSED }],
        last_address_space := 99 }
      (Reach.request _ "P2" 20 "B" (Reach.request _ "P1" 30 "F" Reach.init (by decide))
        (by decide))
      trivial (by decide)
  ⟨hr, no_adjacent_free_of_reach 100 _ hr⟩

/-! ## Uniqueness of owners (C4) -/

theorem nodup_of_subperm (l1 l2 : List String) (h : l1.Subperm l2) (hn : l2.Nodup) :
    l1.Nodup := by
  obtain ⟨l, hp, hs⟩ := h
  exact hp.nodup_iff.mp (hn.sublist hs)

theorem owners_append (l1 l2 : List Node) : owners (l1 ++ l2) = owners l1 ++ owners l2 := by
  simp [owners]

theorem owners_cons_free (n : Node) (l : List Node) (h : n.process_id = UNUSED) :
    owners (n :: l) = owners l := by
  simp [owners, h]

theorem owners_cons_allocated (n : Node) (l : List Node) (h : n.process_id ≠ UNUSED) :
    owners (n :: l) = n.process_id :: owners l := by
  simp [owners, h]

theorem mem_owners (p : String) (l : List Node) (h : p ∈ owners l) :
    ∃ n ∈ l, n.process_id = p := by
  simp only [owners, List.mem_filter, List.mem_map] at h
  obtain ⟨⟨n, hn, he⟩, -⟩ := h
  exact ⟨n, hn, he⟩

theorem owners_place (owner : String) (size last : Int) (n : Node) (post : List Node)
    (howner : owner ≠ UNUSED) :
    owners (place owner size last n post) = owner :: owners post := by
  unfold owners
  rw [place_pids]
  split <;> simp [howner]

theorem placed_unique (owner : String) (size last : Int) (pre : List Node) (n : Node)
    (post : List Node) (hn : n.process_id = UNUSED)
    (hnew : ∀ x ∈ pre ++ n :: post, x.process_id ≠ owner)
    (h : OwnersUnique (pre ++ n :: post)) :
    OwnersUnique (pre ++ place owner size last n post) := by
  have howner : owner ≠ UNUSED := by
    intro hc
    exact hnew n (by simp) (hn.trans hc.symm)
  unfold OwnersUnique at h ⊢
  rw [owners_append, owners_cons_free n post hn] at h
  rw [owners_append, owners_place owner size last n post howner, List.nodup_middle,
    List.nodup_cons]
  refine ⟨?_, h⟩
  intro hmem
  rw [← owners_append] at hmem
  obtain ⟨x, hx, he⟩ := mem_owners owner _ hmem
  refine hnew x ?_ he
  rcases List.mem_append.mp hx with hx | hx
  · exact List.mem_append_left _ hx
  · exact List.mem_append_right _ (List.mem_cons_of_mem _ hx)

theorem release_at_owners (process_id : String) (temp : Node) (l : List Node) (t : Node)
    (r : List Node) (h : release_at process_id temp l = some (t, r)) :
    (owners r).Sublist (owners l) := by
  induction l generalizing temp t r with
  | nil => simp [release_at] at h
  | cons n post ih =>
    unfold release_at at h
    split at h
    · have hs := (merge_pids _ _ _ _ h).2
      have hf : (owners r).Sublist (owners ({ n with process_id := UNUSED } :: post)) :=
        hs.filter _
      rw [owners_cons_free _ post rfl] at hf
      refine hf.trans ?_
      by_cases hu : n.process_id = UNUSED
      · rw [owners_cons_free n post hu]
      · rw [owners_cons_allocated n post hu]
        exact List.sublist_cons_self _ _
    · split at h
      · simp at h
      · rename_i n1 post1 hrec
        simp only [Option.some.injEq, Prod.mk.injEq] at h
        obtain ⟨-, rfl⟩ := h
        have hpid := release_at_pid _ _ _ _ _ hrec
        have hsub := ih n n1 post1 hrec
        by_cases hu : n.process_id = UNUSED
        · rw [owners_cons_free n post hu, owners_cons_free n1 post1 (hpid.trans hu)]
          exact hsub
        · rw [owners_cons_allocated n post hu,
            owners_cons_allocated n1 post1 (by rw [hpid]; exact hu), hpid]
          exact hsub.cons₂ _

theorem compact_loop_pids (k : Nat) (temp : Node) (rest : List Node) (t : Node)
    (r : List Node) (hk : rest.length ≤ k) (h : compact_loop temp rest = some (t, r)) :
    (r.map (fun n => n.process_id)).Subperm (rest.map (fun n => n.process_id)) := by
  induction k generalizing temp rest t r with
  | zero =>
    have : rest = [] := List.length_eq_zero.mp (Nat.le_zero.mp hk)
    subst this
    rw [compact_loop_nil] at h
    simp only [Option.some.injEq, Prod.mk.injEq] at h
    obtain ⟨-, rfl⟩ := h
    exact List.Subperm.refl _
  | succ k ih =>
    cases rest with
    | nil =>
      rw [compact_loop_nil] at h
      simp only [Option.some.injEq, Prod.mk.injEq] at h
      obtain ⟨-, rfl⟩ := h
      exact List.Subperm.refl _
    | cons a rs =>
      rw [compact_loop_cons] at h
      split at h
      · split at h
        · rename_i b rest1 hs
          split at h
          · simp at h
          · rename_i b1 rest2 hm
            split at h
            · simp at h
            · rename_i b2 final hrec
              simp only [Option.some.injEq, Prod.mk.injEq] at h
              obtain ⟨-, rfl⟩ := h
              have hlen1 := swap_nodes_length _ _ hs
              have hlen2 := merge_length _ _ _ _ hm
              simp only [List.length_cons] at hlen1 hk
              have hfin := ih b1 rest2 b2 final (by omega) hrec
              have hb2 : b2 = b1 := compact_loop_fst _ _ _ _ hrec
              have hmp := merge_pids _ _ _ _ hm
              have hsw := swap_nodes_pids _ _ hs
              subst hb2
              refine List.Subperm.trans ?_ hsw.subperm
              simp only [List.map_cons, hmp.1]
              exact (List.subperm_cons _).mpr (hfin.trans hmp.2.subperm)
        · simp at h
      · split at h
        · simp at h
        · rename_i a1 final hrec
          simp only [Option.some.injEq, Prod.mk.injEq] at h
          obtain ⟨-, rfl⟩ := h
          simp only [List.length_cons] at hk
          have hfin := ih a rs a1 final (by omega) hrec
          have ha1 : a1 = a := compact_loop_fst _ _ _ _ hrec
          subst ha1
          simp only [List.map_cons]
          exact (List.subperm_cons _).mpr hfin

theorem ownersUnique_request (m : Mem) (owner : String) (size : Int) (algo : String)
    (h : OwnersUnique m.nodes) : OwnersUnique (request_memory m owner size algo).2.nodes := by
  rcases request_memory_cases m owner size algo with h1 | ⟨pre, n, post, hs, hn, hnew, h1⟩
  · rw [h1]
    exact h
  · rw [h1]
    rw [hs] at h hnew
    exact placed_unique owner size m.last_address_space pre n post hn hnew h

theorem ownersUnique_release (m : Mem) (process_id : String) (o : Outcome) (m1 : Mem)
    (h : OwnersUnique m.nodes) (hr : release_memory m process_id = some (o, m1)) :
    OwnersUnique m1.nodes := by
  rcases release_memory_cases m process_id o m1 hr with
    ⟨-, -, rfl⟩ | ⟨n, head2, nodes2, -, hrel, -, rfl⟩
  · exact h
  · exact List.Nodup.sublist (release_at_owners _ _ _ _ _ hrel) h

theorem ownersUnique_compact (m m1 : Mem) (h : OwnersUnique m.nodes)
    (hc : compact m = some m1) : OwnersUnique m1.nodes := by
  unfold compact at hc
  split at hc
  · simp at hc
  · rename_i head1 nodes1 hloop
    simp only [Option.some.injEq] at hc
    rw [← hc]
    have hp := compact_loop_pids m.nodes.length m.head m.nodes head1 nodes1 le_rfl hloop
    exact nodup_of_subperm _ _ (hp.filter (fun p => decide (p ≠ UNUSED))) h

/-- C4 (owner uniqueness): in every state reachable from the initial partition
by calls of `request_memory` (any owner, any size, any strategy code), of
`release_memory` (any owner) and of `compact`, no two allocated blocks carry
the same owner label. -/
theorem owners_unique_of_reach (total : Int) (m : Mem)
    (h : Reach (fun _ => True) (fun _ => True) total m) : OwnersUnique m.nodes := by
  induction h with
  | init =>
    show (owners (init total).nodes).Nodup
    simp [owners, init]
  | request m owner size algo _ _ ih => exact ownersUnique_request m owner size algo ih
  | release m owner o m1 _ _ hr ih => exact ownersUnique_release m owner o m1 ih hr
  | compact m m1 _ hc ih => exact ownersUnique_compact m m1 ih hc

/-- Witness of C4: the state after `RQ P1 30 F` and `RQ P2 20 B` on a memory of
total size 100 is reachable and its two owners are distinct. -/
theorem owners_unique_of_reach_witness :
    Reach (fun _ => True) (fun _ => True) 100
      (request_memory (request_memory (init 100) "P1" 30 "F").2 "P2" 20 "B").2 ∧
    OwnersUnique
      (request_memory (request_memory (init 100) "P1" 30 "F").2 "P2" 20 "B").2.nodes :=
  have hr : Reach (fun _ => True) (fun _ => True) 100
      (request_memory (request_memory (init 100) "P1" 30 "F").2 "P2" 20 "B").2 :=
    Reach.request _ "P2" 20 "B" (Reach.request _ "P1" 30 "F" Reach.init trivial) trivial
  ⟨hr, owners_unique_of_reach 100 _ hr⟩

/-! ## Capacities and the counter of free bytes -/

theorem shift_addresses_caps (temp : Node) (l : List Node) :
    caps (shift_addresses temp l) = caps l := by
  induction l generalizing temp with
  | nil => rfl
  | cons a l ih =>
    cases l with
    | nil => rfl
    | cons b l =>
      simp only [shift_addresses, caps, List.map_cons, List.cons.injEq, true_and]
      exact ih _

theorem create_node_caps (space_requested left_over last : Int) (n : Node)
    (post : List Node) :
    caps (create_node space_requested left_over last n post) =
      (n.process_id, space_requested) :: (UNUSED, left_over) :: caps post := by
  unfold create_node
  cases post with
  | nil => rfl
  | cons p ps =>
    simp only
    split_ifs
    all_goals
      simp only [caps, List.map_cons, List.cons.injEq, true_and]
      try exact shift_addresses_caps _ _
      try trivial

/-- The (owner, capacity) pairs after a placement in the block `n`. -/
theorem place_caps (process_id : String) (size last : Int) (n : Node) (post : List Node) :
    caps (place process_id size last n post) =
      if n.available_space - size > 0
      then (process_id, size) :: (UNUSED, n.available_space - size) :: caps post
      else (process_id, n.available_space) :: caps post := by
  unfold place
  simp only
  split
  · rw [create_node_caps]
  · rfl

theorem free_sum_congr (l r : List Node) (h : caps l = caps r) : free_sum l = free_sum r := by
  induction l generalizing r with
  | nil =>
    cases r with
    | nil => rfl
    | cons b r => simp [caps] at h
  | cons a l ih =>
    cases r with
    | nil => simp [caps] at h
    | cons b r =>
      simp only [caps, List.map_cons, List.cons.injEq, Prod.mk.injEq] at h
      simp only [free_sum, h.1.1, h.1.2, ih r h.2]

theorem free_sum_append (l r : List Node) : free_sum (l ++ r) = free_sum l + free_sum r := by
  induction l with
  | nil => simp [free_sum]
  | cons a l ih =>
    show (if a.process_id = UNUSED then a.available_space else 0) + free_sum (l ++ r) =
      (if a.process_id = UNUSED then a.available_space else 0) + free_sum l + free_sum r
    rw [ih]
    ring

theorem free_sum_place (owner : String) (size last : Int) (n : Node) (post : List Node)
    (howner : owner ≠ UNUSED) (hfit : size ≤ n.available_space) :
    free_sum (place owner size last n post) = n.available_space - size + free_sum post := by
  have key : ∀ l : List Node, caps l = caps (place owner size last n post) →
      free_sum l = n.available_space - size + free_sum post := by
    intro l hl
    rw [place_caps] at hl
    split at hl
    · rw [free_sum_congr l
        ({ n with process_id := owner, available_space := size } ::
          { n with process_id := UNUSED, available_space := n.available_space - size } ::
          post) hl]
      simp [free_sum, howner]
    · rw [free_sum_congr l ({ n with process_id := owner } :: post) hl]
      simp only [free_sum, if_neg howner]
      omega
  exact key _ rfl

theorem merge_nil (temp : Node) : merge temp [] = none := by
  by_cases ht : temp.process_id = UNUSED <;> simp [merge, merge_first, ht]

theorem merge_allocated_fst (temp : Node) (rest : List Node) (t : Node) (r : List Node)
    (ht : temp.process_id ≠ UNUSED) (h : merge temp rest = some (t, r)) : t = temp := by
  match rest, h with
  | [], h => simp [merge_nil] at h
  | [n], h =>
    rw [merge_allocated_last temp n ht] at h
    simp only [Option.some.injEq, Prod.mk.injEq] at h
    exact h.1.symm
  | n :: r2 :: rs, h =>
    by_cases hr2 : r2.process_id = UNUSED
    · rw [merge_allocated_free temp n r2 rs ht hr2] at h
      simp only [Option.some.injEq, Prod.mk.injEq] at h
      exact h.1.symm
    · rw [merge_allocated_allocated temp n r2 rs ht hr2] at h
      simp only [Option.some.injEq, Prod.mk.injEq] at h
      exact h.1.symm

/-- The function `merge`, run after a block `n` was marked unused, keeps the
sum of the unused capacities of the cursor and the chain after it. -/
theorem merge_free_sum (temp n : Node) (post : List Node) (t : Node) (r : List Node)
    (hn : n.process_id = UNUSED) (h : merge temp (n :: post) = some (t, r)) :
    free_sum (t :: r) = free_sum (temp :: n :: post) := by
  by_cases ht : temp.process_id = UNUSED
  · cases post with
    | nil => simp [merge_free_last temp n ht] at h
    | cons r0 rs =>
      by_cases hr0 : r0.process_id = UNUSED
      · rw [merge_free_free temp n r0 rs ht hr0] at h
        simp only [Option.some.injEq, Prod.mk.injEq] at h
        obtain ⟨rfl, rfl⟩ := h
        simp only [free_sum, if_pos ht, if_pos hn, if_pos hr0]
        ring
      · rw [merge_free_allocated temp n r0 rs ht hr0] at h
        simp only [Option.some.injEq, Prod.mk.injEq] at h
        obtain ⟨rfl, rfl⟩ := h
        simp only [free_sum, if_pos ht, if_pos hn, if_neg hr0]
        ring
  · cases post with
    | nil =>
      rw [merge_allocated_last temp n ht] at h
      simp only [Option.some.injEq, Prod.mk.injEq] at h
      obtain ⟨rfl, rfl⟩ := h
      rfl
    | cons r2 rs =>
      by_cases hr2 : r2.process_id = UNUSED
      · rw [merge_allocated_free temp n r2 rs ht hr2] at h
        simp only [Option.some.injEq, Prod.mk.injEq] at h
        obtain ⟨rfl, rfl⟩ := h
        simp only [free_sum, if_neg ht, if_pos hn, if_pos hr2]
        ring
      · rw [merge_allocated_allocated temp n r2 rs ht hr2] at h
        simp only [Option.some.injEq, Prod.mk.injEq] at h
        obtain ⟨rfl, rfl⟩ := h
        rfl

/-- The function `merge` keeps all capacities non-negative. -/
theorem merge_nonneg (temp : Node) (rest : List Node) (t : Node) (r : List Node)
    (hnn : ∀ x ∈ temp :: rest, 0 ≤ x.available_space)
    (h : merge temp rest = some (t, r)) : ∀ x ∈ t :: r, 0 ≤ x.available_space := by
  have h0 := hnn temp (List.mem_cons_self _ _)
  match rest, hnn, h with
  | [], _, h => simp [merge_nil] at h
  | n :: post, hnn, h =>
    have h1 := hnn n (by simp)
    have hp : ∀ x ∈ post, 0 ≤ x.available_space := fun x hx => hnn x (by simp [hx])
    by_cases ht : temp.process_id = UNUSED
    · cases post with
      | nil => simp [merge_free_last temp n ht] at h
      | cons r0 rs =>
        have h2 := hp r0 (List.mem_cons_self _ _)
        have hrs : ∀ x ∈ rs, 0 ≤ x.available_space :=
          fun x hx => hp x (List.mem_cons_of_mem _ hx)
        by_cases hr0 : r0.process_id = UNUSED
        · rw [merge_free_free temp n r0 rs ht hr0] at h
          simp only [Option.some.injEq, Prod.mk.injEq] at h
          obtain ⟨rfl, rfl⟩ := h
          intro x hx
          rcases List.mem_cons.mp hx with rfl | hx
          · show 0 ≤ temp.available_space + n.available_space + r0.available_space
            omega
          · exact hrs x hx
        · rw [merge_free_allocated temp n r0 rs ht hr0] at h
          simp only [Option.some.injEq, Prod.mk.injEq] at h
          obtain ⟨rfl, rfl⟩ := h
          intro x hx
          rcases List.mem_cons.mp hx with rfl | hx
          · show 0 ≤ temp.available_space + n.available_space
            omega
          · exact hp x hx
    · cases post with
      | nil =>
        rw [merge_allocated_last temp n ht] at h
        simp only [Option.some.injEq, Prod.mk.injEq] at h
        obtain ⟨rfl, rfl⟩ := h
        exact hnn
      | cons r2 rs =>
        have h2 := hp r2 (List.mem_cons_self _ _)
        have hrs : ∀ x ∈ rs, 0 ≤ x.available_space :=
          fun x hx => hp x (List.mem_cons_of_mem _ hx)
        by_cases hr2 : r2.process_id = UNUSED
        · rw [merge_allocated_free temp n r2 rs ht hr2] at h
          simp only [Option.some.injEq, Prod.mk.injEq] at h
          obtain ⟨rfl, rfl⟩ := h
          intro x hx
          rcases List.mem_cons.mp hx with rfl | hx
          · exact h0
          · rcases List.mem_cons.mp hx with rfl | hx
            · show 0 ≤ r2.available_space + n.available_space
              omega
            · exact hrs x hx
        · rw [merge_allocated_allocated temp n r2 rs ht hr2] at h
          simp only [Option.some.injEq, Prod.mk.injEq] at h
          obtain ⟨rfl, rfl⟩ := h
          exact hnn

/-- The refinement of `request_memory_cases` for C `int` sizes: the chosen block
is big enough. The size is at most `INT_MAX` and no unused capacity is
`INT_MIN`. -/
theorem request_memory_cases_fit (m : Mem) (owner : String) (size : Int) (algo : String)
    (hsz : size ≤ INT_MAX)
    (hcap : ∀ n ∈ m.nodes, n.process_id = UNUSED → INT_MIN < n.available_space) :
    (request_memory m owner size algo).2 = m ∨
      ∃ pre n post, m.nodes = pre ++ n :: post ∧ n.process_id = UNUSED ∧
        size ≤ n.available_space ∧ (∀ x ∈ m.nodes, x.process_id ≠ owner) ∧
        request_memory m owner size algo = (Outcome.ok, placed m owner size pre n post) := by
  unfold request_memory
  split
  · exact Or.inl rfl
  · rename_i hfind
    have hnew : ∀ x ∈ m.nodes, x.process_id ≠ owner :=
      (find_process_eq_false_iff owner m.nodes).mp (by simpa using hfind)
    have key : ∀ test : Node → Bool,
        (∀ n ∈ m.nodes, test n = true → n.process_id = UNUSED ∧ size ≤ n.available_space) →
        (finish_request m size
            (place_scan test owner size m.last_address_space m.nodes)).2 = m ∨
          ∃ pre n post, m.nodes = pre ++ n :: post ∧ n.process_id = UNUSED ∧
            size ≤ n.available_space ∧ (∀ x ∈ m.nodes, x.process_id ≠ owner) ∧
            finish_request m size (place_scan test owner size m.last_address_space m.nodes) =
              (Outcome.ok, placed m owner size pre n post) := by
      intro test htest
      rcases finish_request_cases m size
        (place_scan test owner size m.last_address_space m.nodes) with h | ⟨ns, h1, h2⟩
      · exact Or.inl h
      · obtain ⟨pre, n, post, hs, ht, -, hr⟩ := place_scan_split _ _ _ _ _ _ h1
        have hmem : n ∈ m.nodes := by rw [hs]; simp
        refine Or.inr ⟨pre, n, post, hs, (htest n hmem ht).1, (htest n hmem ht).2, hnew, ?_⟩
        rw [h2, hr]
        rfl
    split
    · refine key _ (fun n hmem hn => ?_)
      simp only [decide_eq_true_eq] at hn
      refine ⟨hn.1, ?_⟩
      rcases largest_space_attained size m.nodes INT_MIN with h | ⟨b, -, hbf, hbe⟩
      · have := hcap n hmem hn.1
        omega
      · rw [hn.2, ← hbe]
        exact ((fits_iff size b).mp hbf).2
    · split
      · refine key _ (fun n _ hn => ?_)
        simp only [decide_eq_true_eq] at hn
        refine ⟨hn.1, ?_⟩
        rcases smallest_space_attained size m.nodes INT_MAX with h | ⟨b, -, hbf, hbe⟩
        · omega
        · rw [hn.2, ← hbe]
          exact ((fits_iff size b).mp hbf).2
      · split
        · exact key _ (fun n _ hn => (fits_iff size n).mp hn)
        · exact Or.inl rfl

theorem place_nonneg (owner : String) (size last : Int) (n : Node) (post : List Node)
    (hsize : 0 ≤ size) (hn : 0 ≤ n.available_space)
    (hpost : ∀ x ∈ post, 0 ≤ x.available_space) :
    ∀ x ∈ place owner size last n post, 0 ≤ x.available_space := by
  have key : ∀ p ∈ caps (place owner size last n post), (0 : Int) ≤ p.2 := by
    rw [place_caps]
    have hcp : ∀ p ∈ caps post, (0 : Int) ≤ p.2 := by
      intro p hp
      simp only [caps, List.mem_map] at hp
      obtain ⟨x, hx, rfl⟩ := hp
      exact hpost x hx
    split
    · intro p hp
      rcases List.mem_cons.mp hp with rfl | hp
      · exact hsize
      · rcases List.mem_cons.mp hp with rfl | hp
        · simp only
          omega
        · exact hcp p hp
    · intro p hp
      rcases List.mem_cons.mp hp with rfl | hp
      · exact hn
      · exact hcp p hp
  intro x hx
  exact key (x.process_id, x.available_space) (by
    simp only [caps, List.mem_map]
    exact ⟨x, hx, rfl⟩)

theorem release_at_fst (process_id : String) (temp : Node) (l : List Node) (t : Node)
    (r : List Node) (ht : temp.process_id ≠ UNUSED)
    (h : release_at process_id temp l = some (t, r)) : t = temp := by
  cases l with
  | nil => simp [release_at] at h
  | cons n post =>
    unfold release_at at h
    split at h
    · exact merge_allocated_fst _ _ _ _ ht h
    · split at h
      · simp at h
      · simp only [Option.some.injEq, Prod.mk.injEq] at h
        exact h.1.symm

/-- Releasing an allocated block raises the sum of the unused capacities by the
capacity of that block. -/
theorem release_at_free_sum (process_id : String) (temp : Node) (l : List Node) (t : Node)
    (r : List Node) (n0 : Node) (hp : process_id ≠ UNUSED)
    (hf : found_node process_id l = some n0)
    (h : release_at process_id temp l = some (t, r)) :
    free_sum (t :: r) = free_sum (temp :: l) + n0.available_space := by
  induction l generalizing temp t r with
  | nil => simp [release_at] at h
  | cons n post ih =>
    unfold release_at at h
    unfold found_node at hf
    split at h
    · rename_i hn
      rw [if_pos hn] at hf
      simp only [Option.some.injEq] at hf
      subst hf
      rw [merge_free_sum temp _ post t r rfl h]
      have hnu : n.process_id ≠ UNUSED := by rw [hn]; exact hp
      simp only [free_sum, if_neg hnu]
      simp only [if_true]
      ring
    · rename_i hn
      rw [if_neg hn] at hf
      split at h
      · simp at h
      · rename_i n1 post1 hrec
        simp only [Option.some.injEq, Prod.mk.injEq] at h
        obtain ⟨rfl, rfl⟩ := h
        have := ih n n1 post1 hf hrec
        simp only [free_sum] at this ⊢
        omega

theorem release_at_nonneg (process_id : String) (temp : Node) (l : List Node) (t : Node)
    (r : List Node) (hnn : ∀ x ∈ temp :: l, 0 ≤ x.available_space)
    (h : release_at process_id temp l = some (t, r)) :
    ∀ x ∈ t :: r, 0 ≤ x.available_space := by
  induction l generalizing temp t r with
  | nil => simp [release_at] at h
  | cons n post ih =>
    unfold release_at at h
    split at h
    · refine merge_nonneg temp _ t r ?_ h
      intro x hx
      rcases List.mem_cons.mp hx with rfl | hx
      · exact hnn _ (List.mem_cons_self _ _)
      · rcases List.mem_cons.mp hx with rfl | hx
        · exact hnn n (by simp)
        · exact hnn x (by simp [hx])
    · split at h
      · simp at h
      · rename_i n1 post1 hrec
        simp only [Option.some.injEq, Prod.mk.injEq] at h
        obtain ⟨rfl, rfl⟩ := h
        have := ih n n1 post1 (fun x hx => hnn x (List.mem_cons_of_mem _ hx)) hrec
        intro x hx
        rcases List.mem_cons.mp hx with rfl | hx
        · exact hnn _ (List.mem_cons_self _ _)
        · exact this x hx

/-- On a chain without adjacent unused blocks the loop of `compact` keeps the
sum of the unused capacities and keeps all capacities non-negative. -/
theorem compact_loop_counter (k : Nat) (temp : Node) (rest : List Node) (t : Node)
    (r : List Node) (hk : rest.length ≤ k) (hc : List.Chain NotBothFree temp rest)
    (hlast : temp.process_id = UNUSED → rest = [])
    (hnn : ∀ x ∈ rest, 0 ≤ x.available_space)
    (h : compact_loop temp rest = some (t, r)) :
    free_sum r = free_sum rest ∧ ∀ x ∈ r, 0 ≤ x.available_space := by
  induction k generalizing temp rest t r with
  | zero =>
    have : rest = [] := List.length_eq_zero.mp (Nat.le_zero.mp hk)
    subst this
    rw [compact_loop_nil] at h
    simp only [Option.some.injEq, Prod.mk.injEq] at h
    obtain ⟨rfl, rfl⟩ := h
    exact ⟨rfl, hnn⟩
  | succ k ih =>
    cases rest with
    | nil =>
      rw [compact_loop_nil] at h
      simp only [Option.some.injEq, Prod.mk.injEq] at h
      obtain ⟨rfl, rfl⟩ := h
      exact ⟨rfl, hnn⟩
    | cons a rs =>
      have htemp : temp.process_id ≠ UNUSED := fun hu => List.cons_ne_nil _ _ (hlast hu)
      rw [List.chain_cons] at hc
      rw [compact_loop_cons] at h
      split at h
      · rename_i htest
        match rs, hk, hc, hnn, htest, h with
        | [], _, _, _, _, h => simp [swap_nodes] at h
        | b :: rs1, hk, hc, hnn, htest, h =>
          simp only [swap_nodes] at h
          split at h
          · simp at h
          · rename_i b1 rest2 hm
            split at h
            · simp at h
            · rename_i b2 final hrec
              simp only [Option.some.injEq, Prod.mk.injEq] at h
              obtain ⟨rfl, rfl⟩ := h
              have ha : a.process_id = UNUSED := by
                simp only [compact_test, decide_eq_true_eq] at htest
                rcases htest with h1 | h1
                · exact h1.1
                · exact absurd h1.2 htemp
              rw [List.chain_cons] at hc
              have hb : b.process_id ≠ UNUSED := fun hb => hc.2.1 ⟨ha, hb⟩
              have hmc : List.Chain NotBothFree b1 rest2 :=
                merge_chain _ _ _ _ _ (chain_tail b rs1 hc.2.2) hm
              have hb1 : b1.process_id ≠ UNUSED := by
                rw [(merge_pids _ _ _ _ hm).1]
                exact hb
              have hlen := merge_length _ _ _ _ hm
              simp only [List.length_cons] at hlen hk
              have hsum := (fun hn => merge_free_sum _ _ _ _ _ hn hm) ha
              have hnn2 := merge_nonneg _ _ _ _ (by
                intro x hx
                rcases List.mem_cons.mp hx with rfl | hx
                · exact hnn b (by simp)
                · rcases List.mem_cons.mp hx with rfl | hx
                  · exact hnn a (by simp)
                  · exact hnn x (by simp [hx])) hm
              have hfin := ih b1 rest2 b2 final (by omega) hmc
                (fun hu => absurd hu hb1)
                (fun x hx => hnn2 x (List.mem_cons_of_mem _ hx)) hrec
              have hb2 : b2 = b1 := compact_loop_fst _ _ _ _ hrec
              subst hb2
              refine ⟨?_, ?_⟩
              · simp only [free_sum, if_neg hb1, if_pos ha, if_neg hb] at hsum ⊢
                rw [hfin.1]
                omega
              · intro x hx
                rcases List.mem_cons.mp hx with rfl | hx
                · exact hnn2 _ (List.mem_cons_self _ _)
                · exact hfin.2 x hx
      · rename_i htest
        split at h
        · simp at h
        · rename_i a1 final hrec
          simp only [Option.some.injEq, Prod.mk.injEq] at h
          obtain ⟨rfl, rfl⟩ := h
          simp only [List.length_cons] at hk
          have hfin := ih a rs a1 final (by omega) hc.2 (by
            intro hu
            by_contra hne
            exact htest (by simp [compact_test, hu, hne]))
            (fun x hx => hnn x (List.mem_cons_of_mem _ hx)) hrec
          have ha1 : a1 = a := compact_loop_fst _ _ _ _ hrec
          subst ha1
          refine ⟨?_, ?_⟩
          · simp only [free_sum, hfin.1]
          · intro x hx
            rcases List.mem_cons.mp hx with rfl | hx
            · exact hnn _ (List.mem_cons_self _ _)
            · exact hfin.2 x hx

/-- The invariant behind the counter of free bytes: no adjacent unused blocks,
non-negative capacities, and the counter equal to the sum of the unused
capacities. -/
def CounterInv (m : Mem) : Prop :=
  ChainInv m ∧ (∀ n ∈ m.nodes, 0 ≤ n.available_space) ∧
  m.head.available_space = free_sum m.nodes

theorem counterInv_init (total : Int) (h : 1 ≤ total) : CounterInv (init total) := by
  refine ⟨chainInv_init total, ?_, ?_⟩
  · intro n hn
    simp only [init, List.mem_singleton] at hn
    subst hn
    show 0 ≤ total - 1 - 0
    omega
  · show total - 1 = (if UNUSED = UNUSED then total - 1 - 0 else 0) + 0
    simp

theorem counterInv_request (m : Mem) (owner : String) (size : Int) (algo : String)
    (hsize : 0 < size ∧ size ≤ INT_MAX) (h : CounterInv m) :
    CounterInv (request_memory m owner size algo).2 := by
  have hci := chainInv_request m owner size algo h.1
  have hmin : INT_MIN < 0 := by decide
  rcases request_memory_cases_fit m owner size algo hsize.2
      (fun n hn _ => lt_of_lt_of_le hmin (h.2.1 n hn))
    with h1 | ⟨pre, n, post, hs, hn, hfit, hnew, h1⟩
  · rw [h1]
    exact h
  · refine ⟨hci, ?_, ?_⟩
    · rw [h1]
      show ∀ x ∈ pre ++ place owner size m.last_address_space n post, 0 ≤ x.available_space
      have hall := h.2.1
      rw [hs] at hall
      intro x hx
      rcases List.mem_append.mp hx with hx | hx
      · exact hall x (List.mem_append_left _ hx)
      · exact place_nonneg owner size _ n post (le_of_lt hsize.1) (hall n (by simp))
          (fun y hy => hall y (by simp [hy])) x hx
    · rw [h1]
      show m.head.available_space - size =
        free_sum (pre ++ place owner size m.last_address_space n post)
      have howner : owner ≠ UNUSED := by
        intro hc
        exact hnew n (by rw [hs]; simp) (hn.trans hc.symm)
      rw [free_sum_append, free_sum_place owner size _ n post howner hfit, h.2.2, hs,
        free_sum_append]
      simp only [free_sum, if_pos hn]
      ring

theorem counterInv_release (m : Mem) (process_id : String) (o : Outcome) (m1 : Mem)
    (hp : process_id ≠ UNUSED) (h : CounterInv m)
    (hr : release_memory m process_id = some (o, m1)) : CounterInv m1 := by
  have hci := chainInv_release m process_id o m1 h.1 hr
  rcases release_memory_cases m process_id o m1 hr with
    ⟨-, -, rfl⟩ | ⟨n, head2, nodes2, hfound, hrel, -, rfl⟩
  · exact h
  · have hhead : ({ m.head with available_space :=
        m.head.available_space + n.available_space } : Node).process_id ≠ UNUSED := h.1.1
    have hfst := release_at_fst _ _ _ _ _ hhead hrel
    have hsum := release_at_free_sum _ _ _ _ _ n hp hfound hrel
    have hn0 : 0 ≤ n.available_space := by
      have hmem : n ∈ m.nodes := by
        clear hrel hsum hfst hci
        revert hfound
        generalize m.nodes = l
        intro hfound
        induction l with
        | nil => simp [found_node] at hfound
        | cons a l ih =>
          unfold found_node at hfound
          split at hfound
          · simp only [Option.some.injEq] at hfound
            subst hfound
            exact List.mem_cons_self _ _
          · exact List.mem_cons_of_mem _ (ih hfound)
      exact h.2.1 n hmem
    have hnn := release_at_nonneg _ _ _ _ _ (by
      intro x hx
      rcases List.mem_cons.mp hx with rfl | hx
      · show 0 ≤ m.head.available_space + n.available_space
        have := h.2.2
        have hfs : ∀ l : List Node, (∀ y ∈ l, 0 ≤ y.available_space) → 0 ≤ free_sum l := by
          intro l hl
          induction l with
          | nil => simp [free_sum]
          | cons a l ih =>
            have h1 := ih (fun y hy => hl y (List.mem_cons_of_mem _ hy))
            have h2 := hl a (List.mem_cons_self _ _)
            simp only [free_sum]
            split <;> omega
        have := hfs m.nodes h.2.1
        omega
      · exact h.2.1 x hx) hrel
    refine ⟨hci, fun x hx => hnn x (List.mem_cons_of_mem _ hx), ?_⟩
    show head2.available_space = free_sum nodes2
    subst hfst
    simp only [free_sum, if_neg hhead, if_neg h.1.1, zero_add] at hsum
    rw [hsum, ← h.2.2]

theorem counterInv_compact (m m1 : Mem) (h : CounterInv m) (hc : compact m = some m1) :
    CounterInv m1 := by
  have hci := chainInv_compact m m1 h.1 hc
  unfold compact at hc
  split at hc
  · simp at hc
  · rename_i head1 nodes1 hloop
    simp only [Option.some.injEq] at hc
    subst hc
    have hfst := compact_loop_fst _ _ _ _ hloop
    have hcnt := compact_loop_counter m.nodes.length m.head m.nodes head1 nodes1 le_rfl
      h.1.2 (fun hu => absurd hu h.1.1) h.2.1 hloop
    refine ⟨hci, hcnt.2, ?_⟩
    show head1.available_space = free_sum nodes1
    rw [hfst, hcnt.1]
    exact h.2.2

/-- The counter of free bytes is right as long as the free label is not passed
to `release_memory`: in every state reachable from the initial partition of a
total size >= 1 by requests of a size > 0 (a C `int`), releases of owners other
than `Unused`, and compactions, the counter in `head` equals the sum of the
capacities of the unused blocks. -/
theorem free_total_consistent_of_reach (total : Int) (m : Mem) (htotal : 1 ≤ total)
    (h : Reach (fun s => 0 < s ∧ s ≤ INT_MAX) (fun p => p ≠ UNUSED) total m) :
    m.head.available_space = free_sum m.nodes := by
  have hinv : CounterInv m := by
    induction h with
    | init => exact counterInv_init total htotal
    | request m owner size algo _ hs ih => exact counterInv_request m owner size algo hs ih
    | release m owner o m1 _ hp hr ih => exact counterInv_release m owner o m1 hp ih hr
    | compact m m1 _ hc ih => exact counterInv_compact m m1 ih hc
  exact hinv.2.2

/-! ## The split made by a successful request (C11) -/

theorem finish_request_ok_eq (m m1 : Mem) (size : Int) (r : Option (List Node))
    (h : finish_request m size r = (Outcome.ok, m1)) :
    ∃ ns, r = some ns ∧
      m1 = { m with head := { m.head with
                              available_space := m.head.available_space - size },
                    nodes := ns } := by
  cases r with
  | none => simp [finish_request] at h
  | some ns =>
    simp only [finish_request, Prod.mk.injEq, true_and] at h
    exact ⟨ns, rfl, h.symm⟩

theorem placed_of_scan (m m1 : Mem) (owner : String) (size : Int) (test : Node → Bool)
    (htest : ∀ n ∈ m.nodes, test n = true →
      n.process_id = UNUSED ∧ size ≤ n.available_space)
    (h : finish_request m size (place_scan test owner size m.last_address_space m.nodes) =
      (Outcome.ok, m1)) :
    ∃ pre n post, m.nodes = pre ++ n :: post ∧ n.process_id = UNUSED ∧
      size ≤ n.available_space ∧ m1 = placed m owner size pre n post := by
  obtain ⟨ns, hr, rfl⟩ := finish_request_ok_eq _ _ _ _ h
  obtain ⟨pre, n, post, hs, ht, -, rfl⟩ := place_scan_split _ _ _ _ _ _ hr
  have hmem : n ∈ m.nodes := by rw [hs]; simp
  exact ⟨pre, n, post, hs, (htest n hmem ht).1, (htest n hmem ht).2, rfl⟩

/-- A successful `request_memory` chose an unused block `n` that is big enough,
for an owner that labels no block, and returned the state `placed`. The size is
a C `int` and no unused capacity is `INT_MIN`. -/
theorem request_memory_ok_fit (m m1 : Mem) (owner : String) (size : Int) (algo : String)
    (hsz : size ≤ INT_MAX)
    (hcap : ∀ n ∈ m.nodes, n.process_id = UNUSED → INT_MIN < n.available_space)
    (h : request_memory m owner size algo = (Outcome.ok, m1)) :
    ∃ pre n post, m.nodes = pre ++ n :: post ∧ n.process_id = UNUSED ∧
      size ≤ n.available_space ∧ (∀ x ∈ m.nodes, x.process_id ≠ owner) ∧
      m1 = placed m owner size pre n post := by
  unfold request_memory at h
  split at h
  · simp at h
  · rename_i hfind
    have hnew : ∀ x ∈ m.nodes, x.process_id ≠ owner :=
      (find_process_eq_false_iff owner m.nodes).mp (by simpa using hfind)
    have wrap : (∃ pre n post, m.nodes = pre ++ n :: post ∧ n.process_id = UNUSED ∧
        size ≤ n.available_space ∧ m1 = placed m owner size pre n post) →
        ∃ pre n post, m.nodes = pre ++ n :: post ∧ n.process_id = UNUSED ∧
          size ≤ n.available_space ∧ (∀ x ∈ m.nodes, x.process_id ≠ owner) ∧
          m1 = placed m owner size pre n post := by
      rintro ⟨pre, n, post, h1, h2, h3, h4⟩
      exact ⟨pre, n, post, h1, h2, h3, hnew, h4⟩
    split at h
    · refine wrap (placed_of_scan m m1 owner size _ (fun n hmem hn => ?_) h)
      simp only [decide_eq_true_eq] at hn
      refine ⟨hn.1, ?_⟩
      rcases largest_space_attained size m.nodes INT_MIN with h | ⟨b, -, hbf, hbe⟩
      · have := hcap n hmem hn.1
        omega
      · rw [hn.2, ← hbe]
        exact ((fits_iff size b).mp hbf).2
    · split at h
      · refine wrap (placed_of_scan m m1 owner size _ (fun n _ hn => ?_) h)
        simp only [decide_eq_true_eq] at hn
        refine ⟨hn.1, ?_⟩
        rcases smallest_space_attained size m.nodes INT_MAX with h | ⟨b, -, hbf, hbe⟩
        · omega
        · rw [hn.2, ← hbe]
          exact ((fits_iff size b).mp hbf).2
      · split at h
        · exact wrap (placed_of_scan m m1 owner size _
            (fun n _ hn => (fits_iff size n).mp hn) h)
        · simp at h

theorem caps_append (l r : List Node) : caps (l ++ r) = caps l ++ caps r := by
  simp [caps]

/-- C11 (split postcondition on owners and capacities): for every partition,
every owner, every size (a C `int`) and every strategy, if `request_memory`
succeeds then it chose an unused block `n` of a capacity `c >= size`, the
sequence of (owner, capacity) pairs of the new chain is the old one with the
entry `(Unused, c)` of `n` replaced by `(owner, size), (Unused, c - size)` when
`c > size` and by the single entry `(owner, c)` when `c = size`, all other
entries being kept, and the counter of free bytes in `head` is decreased by
exactly `size`. No unused capacity is `INT_MIN`. -/
theorem split_postcondition (m m1 : Mem) (owner : String) (size : Int) (algo : String)
    (hint : size ≤ INT_MAX)
    (hmin : ∀ n ∈ m.nodes, n.process_id = UNUSED → INT_MIN < n.available_space)
    (hok : request_memory m owner size algo = (Outcome.ok, m1)) :
    ∃ pre n post, m.nodes = pre ++ n :: post ∧
      caps m.nodes = caps pre ++ (UNUSED, n.available_space) :: caps post ∧
      (size < n.available_space ∨ n.available_space = size) ∧
      caps m1.nodes = caps pre ++
        (if size < n.available_space
         then [(owner, size), (UNUSED, n.available_space - size)]
         else [(owner, n.available_space)]) ++ caps post ∧
      m1.head.available_space = m.head.available_space - size := by
  obtain ⟨pre, n, post, hs, hn, hfit, -, rfl⟩ :=
    request_memory_ok_fit m m1 owner size algo hint hmin hok
  refine ⟨pre, n, post, hs, ?_, ?_, ?_, rfl⟩
  · rw [hs, caps_append]
    simp [caps, hn]
  · omega
  · show caps (pre ++ place owner size m.last_address_space n post) = _
    rw [caps_append, place_caps]
    by_cases hlt : size < n.available_space
    · rw [if_pos hlt, if_pos (by omega)]
      simp
    · rw [if_neg hlt, if_neg (by omega)]
      simp

/-- Witness of C11: worst fit of 4 bytes on the example with holes of
capacities 10, 4, 20 splits the hole of capacity 20 into `(P, 4)` and
`(Unused, 16)`. -/
theorem split_postcondition_witness :
    (4 : Int) ≤ INT_MAX ∧
    (∀ n ∈ holes_example.nodes, n.process_id = UNUSED → INT_MIN < n.available_space) ∧
    request_memory holes_example "P" 4 "W" =
      (Outcome.ok, (request_memory holes_example "P" 4 "W").2) ∧
    ∃ pre n post, holes_example.nodes = pre ++ n :: post ∧
      caps holes_example.nodes = caps pre ++ (UNUSED, n.available_space) :: caps post ∧
      (4 < n.available_space ∨ n.available_space = 4) ∧
      caps (request_memory holes_example "P" 4 "W").2.nodes = caps pre ++
        (if 4 < n.available_space
         then [("P", 4), (UNUSED, n.available_space - 4)]
         else [("P", n.available_space)]) ++ caps post ∧
      (request_memory holes_example "P" 4 "W").2.head.available_space =
        holes_example.head.available_space - 4 :=
  ⟨by decide, by decide, by decide,
    split_postcondition holes_example _ "P" 4 "W" (by decide) (by decide) (by decide)⟩

/-! ## Addresses after a placement (C12, C19) -/

/-- The node that `create_node` builds for the left-over space (lines 60-71);
`n` is the block just given to the process. As in `create_node`, the sums of
lines 65 and 66 are integer sums, the values of the C `int` additions when
these do not overflow. -/
def new_node (left_over_space last_address_space : Int) (n : Node) : Node :=
  { process_id := UNUSED, available_space := left_over_space,
    start_address := n.end_address + 1,
    end_address := if n.end_address + 1 + left_over_space > last_address_space
                   then last_address_space else n.end_address + 1 + left_over_space }

/-- The chain after the new node as lines 77-94 of `create_node` leave it:
renumbered when the new node ends at the start address of the next block. -/
def after_new_node (newNode : Node) : List Node → List Node
  | [] => []
  | p :: ps =>
    if newNode.end_address = p.start_address then shift_addresses newNode (p :: ps)
    else p :: ps

/-- The state after `RQ P1 30 F`, `RQ P2 20 B`, `RL P1` on a memory of total
size 100. -/
def scenario_state : Mem :=
  { head := { available_space := 79, start_address := -1, end_address := -1,
              process_id := "Dummy Node" },
    nodes :=
      [{ available_space := 30, start_address := 0, end_address := 30,
         process_id := UNUSED },
       { available_space := 20, start_address := 31, end_address := 51,
         process_id := "P2" },
       { available_space := 49, start_address := 52, end_address := 99,
         process_id := UNUSED }],
    last_address_space := 99 }

theorem create_node_eq (space_requested left_over last : Int) (n : Node)
    (post : List Node) :
    create_node space_requested left_over last n post =
      { n with available_space := space_requested } ::
        new_node left_over last n :: after_new_node (new_node left_over last n) post := by
  unfold create_node
  cases post with
  | nil => rfl
  | cons p ps =>
    simp only [after_new_node, new_node]
    split_ifs <;> rfl

/-- The chain produced by a placement, spelled out. -/
theorem place_eq (owner : String) (size last : Int) (n : Node) (post : List Node) :
    place owner size last n post =
      if n.available_space - size > 0 then
        { n with process_id := owner, end_address := n.start_address + size,
                 available_space := size } ::
          new_node (n.available_space - size) last
              { n with end_address := n.start_address + size } ::
            after_new_node
              (new_node (n.available_space - size) last
                { n with end_address := n.start_address + size }) post
      else
        { n with process_id := owner, end_address := n.start_address + size } :: post := by
  unfold place
  simp only
  split
  · rw [create_node_eq]
    rfl
  · rfl

theorem after_new_node_caps (newNode : Node) (post : List Node) :
    caps (after_new_node newNode post) = caps post := by
  cases post with
  | nil => rfl
  | cons p ps =>
    simp only [after_new_node]
    split
    · exact shift_addresses_caps _ _
    · rfl

theorem caps_length (l r : List Node) (h : caps l = caps r) : l.length = r.length := by
  have := congrArg List.length h
  simpa [caps] using this

/-- C12 (remainder address range), counterexample: the state after
`RQ P1 30 F`, `RQ P2 20 B`, `RL P1` on a memory of total size 100 satisfies the
coverage invariant; `RQ P3 10 F` succeeds on its first block, the unused block
`[0:30]` of capacity 30, and leaves a remainder, which is the block `[11:31]`:
the block that follows the allocated one in the new chain does not end at the
original end 30 of the chosen block. -/
theorem remainder_end_counterexample :
    Coverage 100 scenario_state.nodes ∧
    scenario_state.nodes.head? =
      some { available_space := 30, start_address := 0, end_address := 30,
             process_id := UNUSED } ∧
    (request_memory scenario_state "P3" 10 "F").1 = Outcome.ok ∧
    (request_memory scenario_state "P3" 10 "F").2.nodes =
      [{ available_space := 10, start_address := 0, end_address := 10, process_id := "P3" },
       { available_space := 20, start_address := 11, end_address := 31,
         process_id := UNUSED },
       { available_space := 20, start_address := 32, end_address := 52, process_id := "P2" },
       { available_space := 49, start_address := 53, end_address := 99,
         process_id := UNUSED }] ∧
    ¬ (∃ alloc rem post1,
        (request_memory scenario_state "P3" 10 "F").2.nodes = alloc :: rem :: post1 ∧
        rem.end_address = 30) := by
  have hnodes : (request_memory scenario_state "P3" 10 "F").2.nodes =
      [{ available_space := 10, start_address := 0, end_address := 10, process_id := "P3" },
       { available_space := 20, start_address := 11, end_address := 31,
         process_id := UNUSED },
       { available_space := 20, start_address := 32, end_address := 52, process_id := "P2" },
       { available_space := 49, start_address := 53, end_address := 99,
         process_id := UNUSED }] := by
    decide
  refine ⟨?_, by decide, by decide, hnodes, ?_⟩
  · simp [Coverage, scenario_state]
  · rintro ⟨alloc, rem, post1, h, he⟩
    rw [hnodes] at h
    simp only [List.cons.injEq] at h
    rw [← h.2.1] at he
    simp at he

/-- The range condition `SplitInRange` is not implied by reachability: on a
memory of total size `INT_MAX`, after `RQ P1 1 F` the chain is `P1 [0 : 1]`
followed by the unused block `[2 : 2147483646]` of capacity 2147483645, and for
a further request of 1 byte the sum of line 66 is `4 + 2147483644`, which is
`INT_MAX + 1`: the condition fails for that block. -/
theorem split_out_of_range_example :
    (request_memory (init 2147483647) "P1" 1 "F").1 = Outcome.ok ∧
    (request_memory (init 2147483647) "P1" 1 "F").2.nodes =
      [{ process_id := "P1", start_address := 0, end_address := 1,
         available_space := 1 },
       { process_id := UNUSED, start_address := 2, end_address := 2147483646,
         available_space := 2147483645 }] ∧
    (2 : Int) + 1 + 1 + (2147483645 - 1) = INT_MAX + 1 ∧
    ¬ SplitInRange
        { process_id := UNUSED, start_address := 2, end_address := 2147483646,
          available_space := 2147483645 } 1 :=
  ⟨by decide, by decide, by decide, by decide⟩

/-- C12 as amended (remainder address range): for every partition, satisfying
the coverage invariant or not, and every successful `request_memory` on a
chosen unused block `n` that leaves a remainder (capacity of `n` minus size
> 0), provided no `int` operation of the split overflows (`SplitInRange`: the
sums of lines 213, 65 and 66 and the difference of line 216 are between
`INT_MIN` and `INT_MAX` for every unused block larger than the size), the
allocated block starts at the original start of `n` and ends at that start plus
the size; the new unused remainder block follows it directly in the chain,
starts at the end of the allocated block + 1, and ends at its own start plus
the left-over capacity, a sum within the range of `int`, or at the last address
of the address space when that is smaller, so never beyond the last address.
The size is a C `int` and no unused capacity is `INT_MIN`. -/
theorem remainder_range (m m1 : Mem) (owner : String) (size : Int) (algo : String)
    (hint : size ≤ INT_MAX)
    (hmin : ∀ n ∈ m.nodes, n.process_id = UNUSED → INT_MIN < n.available_space)
    (hrange : ∀ n ∈ m.nodes, n.process_id = UNUSED → size < n.available_space →
      SplitInRange n size)
    (hok : request_memory m owner size algo = (Outcome.ok, m1)) :
    ∃ pre n post, m.nodes = pre ++ n :: post ∧ n.process_id = UNUSED ∧
      size ≤ n.available_space ∧
      (0 < n.available_space - size →
        ∃ alloc rem post1, m1.nodes = pre ++ alloc :: rem :: post1 ∧
          alloc.process_id = owner ∧ alloc.start_address = n.start_address ∧
          alloc.end_address = n.start_address + size ∧
          rem.process_id = UNUSED ∧ rem.start_address = alloc.end_address + 1 ∧
          (INT_MIN ≤ rem.start_address + (n.available_space - size) ∧
            rem.start_address + (n.available_space - size) ≤ INT_MAX) ∧
          rem.end_address =
            min (rem.start_address + (n.available_space - size)) m.last_address_space ∧
          rem.end_address ≤ m.last_address_space) := by
  obtain ⟨pre, n, post, hs, hn, hfit, -, rfl⟩ :=
    request_memory_ok_fit m m1 owner size algo hint hmin hok
  refine ⟨pre, n, post, hs, hn, hfit, fun hrem => ?_⟩
  have hmem : n ∈ m.nodes := by rw [hs]; simp
  obtain ⟨-, -, -, hlo, hhi⟩ := hrange n hmem hn (by omega)
  refine ⟨{ n with process_id := owner, end_address := n.start_address + size,
                   available_space := size },
    new_node (n.available_space - size) m.last_address_space
      { n with end_address := n.start_address + size },
    after_new_node
      (new_node (n.available_space - size) m.last_address_space
        { n with end_address := n.start_address + size }) post, ?_, ?_⟩
  · show pre ++ place owner size m.last_address_space n post = _
    rw [place_eq, if_pos hrem]
  · refine ⟨rfl, rfl, rfl, rfl, rfl, ⟨hlo, hhi⟩, ?_, ?_⟩
    · simp only [new_node]
      split
      · rw [min_eq_right (by omega)]
      · rw [min_eq_left (by omega)]
    · simp only [new_node]
      split <;> omega

/-- Witness of C12 as amended: the request `RQ P3 10 F` of the counterexample. -/
theorem remainder_range_witness :
    (10 : Int) ≤ INT_MAX ∧
    (∀ n ∈ scenario_state.nodes, n.process_id = UNUSED → INT_MIN < n.available_space) ∧
    (∀ n ∈ scenario_state.nodes, n.process_id = UNUSED → 10 < n.available_space →
      SplitInRange n 10) ∧
    request_memory scenario_state "P3" 10 "F" =
      (Outcome.ok, (request_memory scenario_state "P3" 10 "F").2) ∧
    ∃ pre n post, scenario_state.nodes = pre ++ n :: post ∧ n.process_id = UNUSED ∧
      10 ≤ n.available_space ∧
      (0 < n.available_space - 10 →
        ∃ alloc rem post1,
          (request_memory scenario_state "P3" 10 "F").2.nodes =
            pre ++ alloc :: rem :: post1 ∧
          alloc.process_id = "P3" ∧ alloc.start_address = n.start_address ∧
          alloc.end_address = n.start_address + 10 ∧
          rem.process_id = UNUSED ∧ rem.start_address = alloc.end_address + 1 ∧
          (INT_MIN ≤ rem.start_address + (n.available_space - 10) ∧
            rem.start_address + (n.available_space - 10) ≤ INT_MAX) ∧
          rem.end_address =
            min (rem.start_address + (n.available_space - 10))
              scenario_state.last_address_space ∧
          rem.end_address ≤ scenario_state.last_address_space) :=
  ⟨by decide, by decide, by decide, by decide,
    remainder_range scenario_state _ "P3" 10 "F" (by decide) (by decide) (by decide)
      (by decide)⟩

/-- The example with holes of capacities 10, 4, 20 is reachable: it is the state
after `RQ H1 10 F`, `RQ A 5 F`, `RQ H2 4 F`, `RQ B 5 F`, `RL H1`, `RL H2` on a
memory of total size 45. -/
theorem holes_example_reach :
    Reach (fun s => 0 < s) (fun _ => True) 45 holes_example :=
  Reach.release
    { head := { available_space := 30, start_address := -1, end_address := -1,
                process_id := "Dummy Node" },
      nodes :=
        [{ available_space := 10, start_address := 0, end_address := 10,
           process_id := UNUSED },
         { available_space := 5, start_address := 11, end_address := 16, process_id := "A" },
         { available_space := 4, start_address := 17, end_address := 21, process_id := "H2" },
         { available_space := 5, start_address := 22, end_address := 27, process_id := "B" },
         { available_space := 20, start_address := 28, end_address := 44,
           process_id := UNUSED }],
      last_address_space := 44 }
    "H2" Outcome.ok holes_example
    (Reach.release _ "H1" Outcome.ok _
      (Reach.request _ "B" 5 "F"
        (Reach.request _ "H2" 4 "F"
          (Reach.request _ "A" 5 "F"
            (Reach.request _ "H1" 10 "F" Reach.init (by decide)) (by decide))
          (by decide))
        (by decide))
      trivial (by decide))
    trivial (by decide)

/-- C19 (allocation frame), counterexample: in the reachable example with holes
of capacities 10, 4, 20 the request `RQ P 4 F` succeeds on the hole `[0:10]`,
and the blocks of `A`, of the second hole and of `B`, none of which is the
chosen block or its remainder, are moved from `[11:16]`, `[17:21]`, `[22:27]`
to `[12:17]`, `[18:22]`, `[23:28]`: not every allocated block of the old chain,
none of which is the chosen block, has its addresses in the new chain. -/
theorem allocation_frame_counterexample :
    Reach (fun s => 0 < s) (fun _ => True) 45 holes_example ∧
    holes_example.nodes.map (fun n => (n.start_address, n.end_address, n.process_id)) =
      [(0, 10, UNUSED), (11, 16, "A"), (17, 21, UNUSED), (22, 27, "B"), (28, 44, UNUSED)] ∧
    (request_memory holes_example "P" 4 "F").1 = Outcome.ok ∧
    (request_memory holes_example "P" 4 "F").2.nodes.map
        (fun n => (n.start_address, n.end_address, n.process_id)) =
      [(0, 4, "P"), (5, 11, UNUSED), (12, 17, "A"), (18, 22, UNUSED), (23, 28, "B"),
       (29, 44, UNUSED)] ∧
    ¬ (∀ n ∈ holes_example.nodes, n.process_id ≠ UNUSED →
        ∃ n1 ∈ (request_memory holes_example "P" 4 "F").2.nodes,
          n1.process_id = n.process_id ∧ n1.start_address = n.start_address ∧
          n1.end_address = n.end_address) :=
  ⟨holes_example_reach, by decide, by decide, by decide, by decide⟩

/-- C19 as amended (allocation frame): for every partition and every successful
`request_memory` on a chosen unused block `n`, the blocks `pre` before `n` are
the same after the call as before it. The blocks `post` after `n` are the same
too when `n` is filled exactly, and when a remainder block is created that does
not end at the start address of the block that follows it. Otherwise
`create_node` renumbers them: they keep their number, order, owners and
capacities, but not their addresses. The size is a C `int` and no unused
capacity is `INT_MIN`. -/
theorem allocation_frame (m m1 : Mem) (owner : String) (size : Int) (algo : String)
    (hint : size ≤ INT_MAX)
    (hmin : ∀ n ∈ m.nodes, n.process_id = UNUSED → INT_MIN < n.available_space)
    (hok : request_memory m owner size algo = (Outcome.ok, m1)) :
    ∃ pre n post alloc, m.nodes = pre ++ n :: post ∧ n.process_id = UNUSED ∧
      ((n.available_space = size ∧ m1.nodes = pre ++ alloc :: post) ∨
       (size < n.available_space ∧ ∃ rem post1,
          m1.nodes = pre ++ alloc :: rem :: post1 ∧
          post1.length = post.length ∧ caps post1 = caps post ∧
          ((∀ p ∈ post.head?, rem.end_address ≠ p.start_address) → post1 = post))) := by
  obtain ⟨pre, n, post, hs, hn, hfit, -, rfl⟩ :=
    request_memory_ok_fit m m1 owner size algo hint hmin hok
  by_cases hrem : n.available_space - size > 0
  · refine ⟨pre, n, post,
      { n with process_id := owner, end_address := n.start_address + size,
               available_space := size }, hs, hn, Or.inr ⟨by omega,
      new_node (n.available_space - size) m.last_address_space
        { n with end_address := n.start_address + size },
      after_new_node
        (new_node (n.available_space - size) m.last_address_space
          { n with end_address := n.start_address + size }) post, ?_, ?_, ?_, ?_⟩⟩
    · show pre ++ place owner size m.last_address_space n post = _
      rw [place_eq, if_pos hrem]
    · exact caps_length _ _ (after_new_node_caps _ _)
    · exact after_new_node_caps _ _
    · intro hne
      cases post with
      | nil => rfl
      | cons p ps =>
        have := hne p (by simp)
        simp only [after_new_node, if_neg this]
  · refine ⟨pre, n, post,
      { n with process_id := owner, end_address := n.start_address + size }, hs, hn,
      Or.inl ⟨by omega, ?_⟩⟩
    show pre ++ place owner size m.last_address_space n post = _
    rw [place_eq, if_neg hrem]

/-- Witness of C19 as amended: the request `RQ P 4 F` of the counterexample. -/
theorem allocation_frame_witness :
    (4 : Int) ≤ INT_MAX ∧
    (∀ n ∈ holes_example.nodes, n.process_id = UNUSED → INT_MIN < n.available_space) ∧
    request_memory holes_example "P" 4 "F" =
      (Outcome.ok, (request_memory holes_example "P" 4 "F").2) ∧
    ∃ pre n post alloc, holes_example.nodes = pre ++ n :: post ∧ n.process_id = UNUSED ∧
      ((n.available_space = 4 ∧
          (request_memory holes_example "P" 4 "F").2.nodes = pre ++ alloc :: post) ∨
       (4 < n.available_space ∧ ∃ rem post1,
          (request_memory holes_example "P" 4 "F").2.nodes = pre ++ alloc :: rem :: post1 ∧
          post1.length = post.length ∧ caps post1 = caps post ∧
          ((∀ p ∈ post.head?, rem.end_address ≠ p.start_address) → post1 = post))) :=
  ⟨by decide, by decide, by decide,
    allocation_frame holes_example _ "P" 4 "F" (by decide) (by decide) (by decide)⟩

/-! ## The end-to-end scenario (C16) -/

/-- The function `status_report` (lines 449-459): the counter of free bytes that
is printed first, then one line (start, end, label) for every block. -/
def status_report (m : Mem) : Int × List (Int × Int × String) :=
  (m.head.available_space,
    m.nodes.map (fun n => (n.start_address, n.end_address, n.process_id)))

/-- The state after `RQ P1 30 F` and `RQ P2 20 B` on a memory of total size
100. -/
def scenario_allocated : Mem :=
  (request_memory (request_memory (init 100) "P1" 30 "F").2 "P2" 20 "B").2

/-- C16 (end-to-end scenario), counterexample: after `RQ P1 30 F`,
`RQ P2 20 B`, `RL P1` on a memory of total size 100 the counter printed by
`STAT` is 79, not 50: `main` starts it at 100 - 1 = 99, the two requests take
30 and 20 from it, and the release gives 30 back. -/
theorem scenario_free_total_counterexample :
    (release_memory scenario_allocated "P1").map (fun r => (status_report r.2).1) =
      some 79 ∧
    (release_memory scenario_allocated "P1").map (fun r => (status_report r.2).1) ≠
      some 50 := by
  refine ⟨by decide, by decide⟩

/-- C16 as amended (end-to-end scenario): on a memory of total size 100,
`RQ P1 30 F` places `P1` at `[0:30]`, `RQ P2 20 B` places `P2` at `[31:51]`, and
after `RL P1` the report shows an unused block of capacity 30 at the original
location of `P1`, starting at address 0, the block of `P2` exactly as it was
right after its allocation, an unused block after `P2` up to the last address
99, and a counter of free bytes of 79. -/
theorem scenario_report :
    status_report (request_memory (init 100) "P1" 30 "F").2 =
      (69, [(0, 30, "P1"), (31, 99, UNUSED)]) ∧
    status_report scenario_allocated =
      (49, [(0, 30, "P1"), (31, 51, "P2"), (52, 99, UNUSED)]) ∧
    (release_memory scenario_allocated "P1").map (fun r => r.1) = some Outcome.ok ∧
    (release_memory scenario_allocated "P1").map (fun r => status_report r.2) =
      some (79, [(0, 30, UNUSED), (31, 51, "P2"), (52, 99, UNUSED)]) ∧
    (release_memory scenario_allocated "P1").map (fun r => caps r.2.nodes) =
      some [(UNUSED, 30), ("P2", 20), (UNUSED, 49)] := by
  refine ⟨by decide, by decide, by decide, by decide, by decide⟩

/-! ## Aborts (C17) -/

/-- The state after `RQ P1 30 F`, `RQ P2 69 F`, `RL P1` on a memory of total
size 100: an unused block followed by the block of `P2`, which is the last. -/
def last_block_state : Mem :=
  { head := { available_space := 30, start_address := -1, end_address := -1,
              process_id := "Dummy Node" },
    nodes :=
      [{ available_space := 30, start_address := 0, end_address := 30,
         process_id := UNUSED },
       { available_space := 69, start_address := 31, end_address := 100,
         process_id := "P2" }],
    last_address_space := 99 }

/-- C17 (no operation aborts), failing input: the state after `RQ P1 30 F`,
`RQ P2 69 F`, `RL P1` on a memory of total size 100 is reachable, and `RL P2`
aborts in it: `merge` joins the block of `P2` to the unused block before it,
which then has no successor, and the last `if` of `merge` (line 133) reads the
label of that missing successor. -/
theorem release_aborts_on_last_block :
    Reach (fun s => 0 < s) (fun _ => True) 100 last_block_state ∧
    release_memory last_block_state "P2" = none := by
  refine ⟨?_, by decide⟩
  exact Reach.release _ "P1" Outcome.ok last_block_state
    (Reach.request _ "P2" 69 "F" (Reach.request _ "P1" 30 "F" Reach.init (by decide))
      (by decide))
    trivial (by decide)

/-! ## Conservation of capacity (C20) -/

/-- The sum of `available_space` over all blocks, unused and allocated. -/
def total_space : List Node → Int
  | [] => 0
  | n :: rest => n.available_space + total_space rest

theorem total_space_congr (l r : List Node) (h : caps l = caps r) :
    total_space l = total_space r := by
  induction l generalizing r with
  | nil =>
    cases r with
    | nil => rfl
    | cons b r => simp [caps] at h
  | cons a l ih =>
    cases r with
    | nil => simp [caps] at h
    | cons b r =>
      simp only [caps, List.map_cons, List.cons.injEq, Prod.mk.injEq] at h
      simp only [total_space, h.1.2, ih r h.2]

theorem total_space_append (l r : List Node) :
    total_space (l ++ r) = total_space l + total_space r := by
  induction l with
  | nil => simp [total_space]
  | cons a l ih =>
    show a.available_space + total_space (l ++ r) =
      a.available_space + total_space l + total_space r
    rw [ih]
    ring

/-- A placement keeps the sum of the capacities, whatever the size. -/
theorem total_space_place (owner : String) (size last : Int) (n : Node) (post : List Node) :
    total_space (place owner size last n post) = total_space (n :: post) := by
  have key : ∀ l : List Node, caps l = caps (place owner size last n post) →
      total_space l = total_space (n :: post) := by
    intro l hl
    rw [place_caps] at hl
    split at hl
    · rw [total_space_congr l
        ({ n with process_id := owner, available_space := size } ::
          { n with process_id := UNUSED, available_space := n.available_space - size } ::
          post) hl]
      simp only [total_space]
      ring
    · rw [total_space_congr l ({ n with process_id := owner } :: post) hl]
      rfl
  exact key _ rfl

/-- The function `merge` keeps the sum of the capacities of the cursor and of
the chain after it. -/
theorem merge_total_space (temp : Node) (rest : List Node) (t : Node) (r : List Node)
    (h : merge temp rest = some (t, r)) :
    total_space (t :: r) = total_space (temp :: rest) := by
  match rest, h with
  | [], h => simp [merge_nil] at h
  | n :: post, h =>
    by_cases ht : temp.process_id = UNUSED
    · cases post with
      | nil => simp [merge_free_last temp n ht] at h
      | cons r0 rs =>
        by_cases hr0 : r0.process_id = UNUSED
        · rw [merge_free_free temp n r0 rs ht hr0] at h
          simp only [Option.some.injEq, Prod.mk.injEq] at h
          obtain ⟨rfl, rfl⟩ := h
          simp only [total_space]
          ring
        · rw [merge_free_allocated temp n r0 rs ht hr0] at h
          simp only [Option.some.injEq, Prod.mk.injEq] at h
          obtain ⟨rfl, rfl⟩ := h
          simp only [total_space]
          ring
    · cases post with
      | nil =>
        rw [merge_allocated_last temp n ht] at h
        simp only [Option.some.injEq, Prod.mk.injEq] at h
        obtain ⟨rfl, rfl⟩ := h
        rfl
      | cons r2 rs =>
        by_cases hr2 : r2.process_id = UNUSED
        · rw [merge_allocated_free temp n r2 rs ht hr2] at h
          simp only [Option.some.injEq, Prod.mk.injEq] at h
          obtain ⟨rfl, rfl⟩ := h
          simp only [total_space]
          ring
        · rw [merge_allocated_allocated temp n r2 rs ht hr2] at h
          simp only [Option.some.injEq, Prod.mk.injEq] at h
          obtain ⟨rfl, rfl⟩ := h
          rfl

theorem release_at_total_space (process_id : String) (temp : Node) (l : List Node)
    (t : Node) (r : List Node) (h : release_at process_id temp l = some (t, r)) :
    total_space (t :: r) = total_space (temp :: l) := by
  induction l generalizing temp t r with
  | nil => simp [release_at] at h
  | cons n post ih =>
    unfold release_at at h
    split at h
    · rw [merge_total_space _ _ _ _ h]
      rfl
    · split at h
      · simp at h
      · rename_i n1 post1 hrec
        simp only [Option.some.injEq, Prod.mk.injEq] at h
        obtain ⟨rfl, rfl⟩ := h
        have := ih n n1 post1 hrec
        simp only [total_space] at this ⊢
        omega

theorem swap_nodes_total_space (l r : List Node) (h : swap_nodes l = some r) :
    total_space r = total_space l := by
  match l, h with
  | a :: b :: rs, h =>
    simp only [swap_nodes, Option.some.injEq] at h
    subst h
    simp only [total_space]
    ring

theorem compact_loop_total_space (k : Nat) (temp : Node) (rest : List Node) (t : Node)
    (r : List Node) (hk : rest.length ≤ k) (h : compact_loop temp rest = some (t, r)) :
    total_space r = total_space rest := by
  induction k generalizing temp rest t r with
  | zero =>
    have : rest = [] := List.length_eq_zero.mp (Nat.le_zero.mp hk)
    subst this
    rw [compact_loop_nil] at h
    simp only [Option.some.injEq, Prod.mk.injEq] at h
    obtain ⟨-, rfl⟩ := h
    rfl
  | succ k ih =>
    cases rest with
    | nil =>
      rw [compact_loop_nil] at h
      simp only [Option.some.injEq, Prod.mk.injEq] at h
      obtain ⟨-, rfl⟩ := h
      rfl
    | cons a rs =>
      rw [compact_loop_cons] at h
      split at h
      · split at h
        · rename_i b rest1 hs
          split at h
          · simp at h
          · rename_i b1 rest2 hm
            split at h
            · simp at h
            · rename_i b2 final hrec
              simp only [Option.some.injEq, Prod.mk.injEq] at h
              obtain ⟨-, rfl⟩ := h
              have hlen1 := swap_nodes_length _ _ hs
              have hlen2 := merge_length _ _ _ _ hm
              simp only [List.length_cons] at hlen1 hk
              have hfin := ih b1 rest2 b2 final (by omega) hrec
              have hb2 : b2 = b1 := compact_loop_fst _ _ _ _ hrec
              subst hb2
              have hm2 := merge_total_space _ _ _ _ hm
              have hs2 := swap_nodes_total_space _ _ hs
              simp only [total_space] at hm2 hs2 ⊢
              omega
        · simp at h
      · split at h
        · simp at h
        · rename_i a1 final hrec
          simp only [Option.some.injEq, Prod.mk.injEq] at h
          obtain ⟨-, rfl⟩ := h
          simp only [List.length_cons] at hk
          have hfin := ih a rs a1 final (by omega) hrec
          have ha1 : a1 = a := compact_loop_fst _ _ _ _ hrec
          subst ha1
          simp only [total_space, hfin]

theorem total_space_of_reach (okSize : Int → Prop) (okOwner : String → Prop) (total : Int)
    (m : Mem) (h : Reach okSize okOwner total m) : total_space m.nodes = total - 1 := by
  induction h with
  | init =>
    show total - 1 - 0 + 0 = total - 1
    ring
  | request m owner size algo _ _ ih =>
    rcases request_memory_cases m owner size algo with h1 | ⟨pre, n, post, hs, -, -, h1⟩
    · rw [h1]
      exact ih
    · rw [h1]
      show total_space (pre ++ place owner size m.last_address_space n post) = total - 1
      rw [total_space_append, total_space_place, ← total_space_append, ← hs]
      exact ih
  | release m owner o m1 hreach _ hr ih =>
    rcases release_memory_cases m owner o m1 hr with
      ⟨-, -, rfl⟩ | ⟨n, head2, nodes2, -, hrel, -, rfl⟩
    · exact ih
    · have hinv := chainInv_of_reach _ _ _ _ hreach
      have hhead : ({ m.head with available_space :=
          m.head.available_space + n.available_space } : Node).process_id ≠ UNUSED := hinv.1
      have hfst := release_at_fst _ _ _ _ _ hhead hrel
      have hsum := release_at_total_space _ _ _ _ _ hrel
      subst hfst
      show total_space nodes2 = total - 1
      simp only [total_space] at hsum
      omega
  | compact m m1 _ hc ih =>
    unfold compact at hc
    split at hc
    · simp at hc
    · rename_i head1 nodes1 hloop
      simp only [Option.some.injEq] at hc
      subst hc
      show total_space nodes1 = total - 1
      rw [compact_loop_total_space m.nodes.length _ _ _ _ le_rfl hloop]
      exact ih

/-- C20 (capacity conservation): in every state reachable from the initial
partition of total size `N` by calls of `request_memory` with a size > 0, of
`release_memory` with an owner (a label other than `Unused`) and of `compact`,
the sum of the capacities of all blocks, unused and allocated, equals the
capacity `N - 1` of the initial single unused block. -/
theorem capacity_conserved_of_reach (total : Int) (m : Mem)
    (h : Reach (fun s => 0 < s) (fun p => p ≠ UNUSED) total m) :
    total_space m.nodes = total - 1 :=
  total_space_of_reach _ _ total m h

/-- Witness of C20: the state after `RQ P1 30 F`, `RQ P2 20 B`, `RL P1` on a
memory of total size 100 is reachable, and its capacities 30, 20, 49 add up to
99. -/
theorem capacity_conserved_of_reach_witness :
    Reach (fun s => 0 < s) (fun p => p ≠ UNUSED) 100 scenario_state ∧
    total_space scenario_state.nodes = 100 - 1 :=
  have hr : Reach (fun s => 0 < s) (fun p => p ≠ UNUSED) 100 scenario_state :=
    Reach.release _ "P1" Outcome.ok scenario_state
      (Reach.request _ "P2" 20 "B" (Reach.request _ "P1" 30 "F" Reach.init (by decide))
        (by decide))
      (by decide) (by decide)
  ⟨hr, capacity_conserved_of_reach 100 scenario_state hr⟩

/-! ## Release: coalescing (C13) and the round trip (C14) -/

theorem found_node_append (P : String) (pre : List Node) (n : Node) (post : List Node)
    (hpre : ∀ y ∈ pre, y.process_id ≠ P) (hn : n.process_id = P) :
    found_node P (pre ++ n :: post) = some n := by
  induction pre with
  | nil => simp [found_node, hn]
  | cons a pre ih =>
    have ha : a.process_id ≠ P := hpre a (List.mem_cons_self _ _)
    simp only [List.cons_append, found_node, if_neg ha]
    exact ih (fun y hy => hpre y (List.mem_cons_of_mem _ hy))

theorem release_at_head (P : String) (temp n : Node) (post : List Node)
    (hn : n.process_id = P) :
    release_at P temp (n :: post) = merge temp ({ n with process_id := UNUSED } :: post) := by
  simp [release_at, hn]

/-- The walk of `release_memory` when the first block labelled `P` is `n` and
the block before it in the chain is `x`: `merge` runs with the cursor on `x`. -/
theorem release_at_append (P : String) (temp x n : Node) (pre post : List Node)
    (hpre : ∀ y ∈ pre, y.process_id ≠ P) (hx : x.process_id ≠ P) (hn : n.process_id = P)
    (t : Node) (r : List Node)
    (hm : merge x ({ n with process_id := UNUSED } :: post) = some (t, r)) :
    release_at P temp (pre ++ x :: n :: post) = some (temp, pre ++ t :: r) := by
  induction pre generalizing temp with
  | nil =>
    simp only [List.nil_append]
    rw [release_at, if_neg hx, release_at_head P x n post hn, hm]
  | cons a pre ih =>
    have ha : a.process_id ≠ P := hpre a (List.mem_cons_self _ _)
    simp only [List.cons_append]
    rw [release_at, if_neg ha, ih a (fun y hy => hpre y (List.mem_cons_of_mem _ hy))]

/-- The function `release_memory` when the first block labelled `P` is `n`, the
block before it (or the dummy node, when `n` is the first block) is not unused,
and `merge` with such a cursor turns the chain from `n` on into `r`. -/
theorem release_memory_at (m : Mem) (P : String) (pre : List Node) (n : Node)
    (post r : List Node)
    (hs : m.nodes = pre ++ n :: post) (hpre : ∀ y ∈ pre, y.process_id ≠ P)
    (hn : n.process_id = P) (hhead : m.head.process_id ≠ UNUSED)
    (hlast : ∀ L x, pre = L ++ [x] → x.process_id ≠ UNUSED)
    (hm : ∀ temp : Node, temp.process_id ≠ UNUSED →
      merge temp ({ n with process_id := UNUSED } :: post) = some (temp, r)) :
    release_memory m P =
      some (Outcome.ok,
        { m with
          head := { m.head with
                    available_space := m.head.available_space + n.available_space },
          nodes := pre ++ r }) := by
  have hfound : found_node P m.nodes = some n := by
    rw [hs]
    exact found_node_append P pre n post hpre hn
  unfold release_memory
  rw [hfound]
  simp only
  rcases List.eq_nil_or_concat pre with hnil | ⟨L, x, hL⟩
  · subst hnil
    simp only [List.nil_append] at hs ⊢
    rw [hs, release_at_head P _ n post hn,
      hm { m.head with available_space := m.head.available_space + n.available_space } hhead]
  · rw [List.concat_eq_append] at hL
    subst hL
    have hx : x.process_id ≠ P := hpre x (by simp)
    have hxu : x.process_id ≠ UNUSED := hlast L x rfl
    have hrel := release_at_append P
      { m.head with available_space := m.head.available_space + n.available_space }
      x n L post (fun y hy => hpre y (by simp [hy])) hx hn x r (hm x hxu)
    rw [hs]
    simp only [List.append_assoc, List.singleton_append]
    rw [hrel]

theorem noAdjacentFree_around (pre : List Node) (n : Node) (post : List Node)
    (hn : n.process_id = UNUSED) (h : NoAdjacentFree (pre ++ n :: post)) :
    (∀ L x, pre = L ++ [x] → x.process_id ≠ UNUSED) ∧
    (∀ p ps, post = p :: ps → p.process_id ≠ UNUSED) := by
  unfold NoAdjacentFree at h
  constructor
  · intro L x hL hx
    subst hL
    simp only [List.append_assoc, List.singleton_append] at h
    have h1 := (List.chain'_split.mp h).2
    exact (List.chain'_cons.mp h1).1 ⟨hx, hn⟩
  · intro p ps hp hpu
    subst hp
    have h1 := (List.chain'_split.mp h).2
    exact (List.chain'_cons.mp h1).1 ⟨hn, hpu⟩

/-- C14 (allocate/release round trip): in every partition without adjacent
unused blocks, for every owner `P`, every size (a C `int`) and every strategy,
if `request_memory` for `P` succeeds then a following `release_memory` for `P`
succeeds too, and the state it returns has the counter of free bytes of the
state before the allocation and the same sequence of (owner, capacity) pairs.
The dummy node is not labelled unused and no unused capacity is `INT_MIN`. -/
theorem allocate_release_round_trip (m m1 : Mem) (P : String) (size : Int) (algo : String)
    (hhead : m.head.process_id ≠ UNUSED)
    (hadj : NoAdjacentFree m.nodes)
    (hint : size ≤ INT_MAX)
    (hmin : ∀ n ∈ m.nodes, n.process_id = UNUSED → INT_MIN < n.available_space)
    (hok : request_memory m P size algo = (Outcome.ok, m1)) :
    ∃ m2, release_memory m1 P = some (Outcome.ok, m2) ∧
      m2.head.available_space = m.head.available_space ∧
      caps m2.nodes = caps m.nodes := by
  obtain ⟨pre, n, post, hs, hn, hfit, hnew, rfl⟩ :=
    request_memory_ok_fit m m1 P size algo hint hmin hok
  have hP : P ≠ UNUSED := by
    intro hc
    exact hnew n (by rw [hs]; simp) (hn.trans hc.symm)
  rw [hs] at hadj
  obtain ⟨hlast, hnext⟩ := noAdjacentFree_around pre n post hn hadj
  have hpre : ∀ y ∈ pre, y.process_id ≠ P := fun y hy => hnew y (by rw [hs]; simp [hy])
  have hcaps : caps m.nodes = caps pre ++ (UNUSED, n.available_space) :: caps post := by
    rw [hs, caps_append]
    simp [caps, hn]
  by_cases hrem : n.available_space - size > 0
  · -- a remainder was split off: the release joins it to the released block
    have hnodes : (placed m P size pre n post).nodes = pre ++
        { n with process_id := P, end_address := n.start_address + size,
                 available_space := size } ::
          (new_node (n.available_space - size) m.last_address_space
              { n with end_address := n.start_address + size } ::
            after_new_node
              (new_node (n.available_space - size) m.last_address_space
                { n with end_address := n.start_address + size }) post) := by
      show pre ++ place P size m.last_address_space n post = _
      rw [place_eq, if_pos hrem]
    have hrel := release_memory_at (placed m P size pre n post) P pre _ _ _ hnodes hpre rfl
      hhead hlast (fun temp ht => merge_allocated_free temp _ _ _ ht rfl)
    refine ⟨_, hrel, ?_, ?_⟩
    · show m.head.available_space - size + size = m.head.available_space
      ring
    · show caps (pre ++ _) = _
      rw [caps_append, hcaps]
      simp only [caps, List.map_cons, new_node]
      have := after_new_node_caps
        (new_node (n.available_space - size) m.last_address_space
          { n with end_address := n.start_address + size }) post
      simp only [caps, new_node] at this
      rw [this]
      simp
  · -- the block was filled exactly: the release only relabels it
    have hcap : n.available_space = size := by omega
    have hnodes : (placed m P size pre n post).nodes = pre ++
        { n with process_id := P, end_address := n.start_address + size } :: post := by
      show pre ++ place P size m.last_address_space n post = _
      rw [place_eq, if_neg hrem]
    have hmerge : ∀ temp : Node, temp.process_id ≠ UNUSED →
        merge temp ({ ({ n with process_id := P,
                                end_address := n.start_address + size } : Node) with
                      process_id := UNUSED } :: post) =
          some (temp, { ({ n with process_id := P,
                                  end_address := n.start_address + size } : Node) with
                        process_id := UNUSED } :: post) := by
      intro temp ht
      cases post with
      | nil => exact merge_allocated_last temp _ ht
      | cons p ps => exact merge_allocated_allocated temp _ p ps ht (hnext p ps rfl)
    have hrel := release_memory_at (placed m P size pre n post) P pre _ _ _ hnodes hpre rfl
      hhead hlast hmerge
    refine ⟨_, hrel, ?_, ?_⟩
    · show m.head.available_space - size + n.available_space = m.head.available_space
      omega
    · show caps (pre ++ _) = _
      rw [caps_append, hcaps]
      simp [caps]

/-- Witness of C14: on the reachable state after `RQ P1 30 F`, `RQ P2 20 B`,
`RL P1` on a memory of total size 100, `RQ P3 10 F` followed by `RL P3`. -/
theorem allocate_release_round_trip_witness :
    scenario_state.head.process_id ≠ UNUSED ∧
    NoAdjacentFree scenario_state.nodes ∧
    (10 : Int) ≤ INT_MAX ∧
    (∀ n ∈ scenario_state.nodes, n.process_id = UNUSED → INT_MIN < n.available_space) ∧
    request_memory scenario_state "P3" 10 "F" =
      (Outcome.ok, (request_memory scenario_state "P3" 10 "F").2) ∧
    ∃ m2, release_memory (request_memory scenario_state "P3" 10 "F").2 "P3" =
        some (Outcome.ok, m2) ∧
      m2.head.available_space = scenario_state.head.available_space ∧
      caps m2.nodes = caps scenario_state.nodes :=
  have hadj : NoAdjacentFree scenario_state.nodes := by
    simp [NoAdjacentFree, NotBothFree, scenario_state, UNUSED]
  ⟨by decide, hadj, by decide, by decide, by decide,
    allocate_release_round_trip scenario_state _ "P3" 10 "F" (by decide) hadj (by decide)
      (by decide) (by decide)⟩

/-! ## Termination of compaction (C18) -/

/-- One iteration of the loop of `compact` (lines 426-441) with the cursor on
`temp`, the block `a` after it and the chain `rs` after `a`: the cursor and the
chain after it at the next test of the loop condition; `none` is an abort. -/
def compact_next (temp a : Node) (rs : List Node) : Option (Node × List Node) :=
  if compact_test temp a rs then
    match swap_nodes (a :: rs) with
    | some (b :: rest1) => merge b rest1
    | _ => none
  else some (a, rs)

/-- The loop of `compact` run for at most `fuel` tests of its condition: the
outer `none` means that the budget ran out before the cursor reached the end of
the chain, the inner one is an abort. -/
def compact_fuel : Nat → Node → List Node → Option (Option (Node × List Node))
  | 0, _, _ => none
  | _ + 1, temp, [] => some (some (temp, []))
  | fuel + 1, temp, a :: rs =>
    match compact_next temp a rs with
    | none => some none
    | some (t, r) =>
      match compact_fuel fuel t r with
      | none => none
      | some none => some none
      | some (some (t2, final)) => some (some (temp, t2 :: final))

/-- Every iteration of the loop of `compact` strictly decreases the number of
blocks after the cursor. -/
theorem compact_next_length (temp a : Node) (rs : List Node) (t : Node) (r : List Node)
    (h : compact_next temp a rs = some (t, r)) : r.length < (a :: rs).length := by
  unfold compact_next at h
  split at h
  · split at h
    · rename_i b rest1 hs
      have h1 := swap_nodes_length _ _ hs
      have h2 := merge_length _ _ _ _ h
      simp only [List.length_cons] at h1 ⊢
      omega
    · simp at h
  · simp only [Option.some.injEq, Prod.mk.injEq] at h
    obtain ⟨-, rfl⟩ := h
    simp

/-- The loop of `compact` in terms of its iterations. -/
theorem compact_loop_next (temp a : Node) (rs : List Node) :
    compact_loop temp (a :: rs) =
      match compact_next temp a rs with
      | none => none
      | some (t, r) =>
        match compact_loop t r with
        | none => none
        | some (t2, final) => some (temp, t2 :: final) := by
  rw [compact_loop_cons]
  unfold compact_next
  split
  · cases hs : swap_nodes (a :: rs) with
    | none => rfl
    | some l =>
      cases l with
      | nil => rfl
      | cons b rest1 => rfl
  · rfl

/-- Run with a budget of tests that exceeds the number of blocks after the
cursor, the loop of `compact` does not exhaust the budget and returns the value
of `compact_loop`. -/
theorem compact_fuel_eq (fuel : Nat) (temp : Node) (rest : List Node)
    (h : rest.length < fuel) :
    compact_fuel fuel temp rest = some (compact_loop temp rest) := by
  induction fuel generalizing temp rest with
  | zero => omega
  | succ fuel ih =>
    cases rest with
    | nil => rw [compact_loop_nil]; rfl
    | cons a rs =>
      rw [compact_loop_next]
      unfold compact_fuel
      cases hn : compact_next temp a rs with
      | none => rfl
      | some p =>
        obtain ⟨t, r⟩ := p
        have hlen := compact_next_length temp a rs t r hn
        simp only [List.length_cons] at hlen h
        simp only
        rw [ih t r (by omega)]
        cases compact_loop t r with
        | none => rfl
        | some q => rfl

/-- C18 (compaction terminates): for every finite chain, the pass of `compact`
reaches the end of the chain after finitely many iterations: run with a budget
of tests of the loop condition that exceeds the number of blocks after the
cursor, the loop never exhausts the budget and returns the value of
`compact_loop`, the total function defined by well-founded recursion on the
number of blocks after the cursor; and every iteration, whether it swaps and
merges or advances the cursor, strictly decreases that number. -/
theorem compact_terminates (fuel : Nat) (temp : Node) (rest : List Node)
    (h : rest.length < fuel) :
    compact_fuel fuel temp rest = some (compact_loop temp rest) ∧
    (∀ a rs t r, rest = a :: rs → compact_next temp a rs = some (t, r) →
      r.length < rest.length) := by
  refine ⟨compact_fuel_eq fuel temp rest h, ?_⟩
  intro a rs t r hrest hn
  subst hrest
  exact compact_next_length temp a rs t r hn

/-- Witness of C18: on the chain of three blocks left by `RQ P1 30 F`,
`RQ P2 20 B`, `RL P1` on a memory of total size 100 a budget of four tests is
enough. -/
theorem compact_terminates_witness :
    scenario_state.nodes.length < 4 ∧
    compact_fuel 4 scenario_state.head scenario_state.nodes =
      some (compact_loop scenario_state.head scenario_state.nodes) ∧
    (∀ a rs t r, scenario_state.nodes = a :: rs →
      compact_next scenario_state.head a rs = some (t, r) →
      r.length < scenario_state.nodes.length) :=
  ⟨by decide, compact_terminates 4 scenario_state.head scenario_state.nodes (by decide)⟩

/-- The pass of `compact` on that chain, evaluated with a budget of four
tests: the block of `P2` moves to address 0 and the two unused blocks are
joined behind it. -/
theorem compact_fuel_example :
    compact_fuel 4 scenario_state.head scenario_state.nodes =
      some (some (scenario_state.head,
        [{ available_space := 20, start_address := 0, end_address := 20, process_id := "P2" },
         { available_space := 79, start_address := 21, end_address := 99,
           process_id := UNUSED }])) := by
  decide

/-! ## The result of compaction (C15) -/

/-- The blocks of a chain up to and including its first unused block are laid
out from the address `s`: the first block starts at `s`, and the block after an
allocated block starts one address past the end of that block. -/
def PackedFrom (s : Int) : List Node → Prop
  | [] => True
  | a :: rs => a.start_address = s ∧ (a.process_id ≠ UNUSED → PackedFrom (a.end_address + 1) rs)

/-- The (owner, capacity) pairs of the allocated blocks, in chain order. -/
def allocated_caps (l : List Node) : List (String × Int) :=
  (caps l).filter (fun p => p.1 ≠ UNUSED)

theorem allocated_caps_cons_free (n : Node) (l : List Node) (h : n.process_id = UNUSED) :
    allocated_caps (n :: l) = allocated_caps l := by
  simp [allocated_caps, caps, h]

theorem allocated_caps_cons_allocated (n : Node) (l : List Node)
    (h : n.process_id ≠ UNUSED) :
    allocated_caps (n :: l) = (n.process_id, n.available_space) :: allocated_caps l := by
  simp [allocated_caps, caps, h]

theorem packedFrom_of_chain (l : List Node) (s : Int)
    (hs : ∀ a ∈ l.head?, a.start_address = s)
    (hc : l.Chain' (fun a b => a.end_address + 1 = b.start_address)) : PackedFrom s l := by
  induction l generalizing s with
  | nil => trivial
  | cons a l ih =>
    refine ⟨hs a (by simp), fun _ => ?_⟩
    rw [List.chain'_cons'] at hc
    exact ih _ (fun y hy => (hc.1 y hy).symm) hc.2

theorem packed_of_packedFrom (allocs tail : List Node) (s : Int)
    (hall : ∀ x ∈ allocs, x.process_id ≠ UNUSED) (hp : PackedFrom s (allocs ++ tail)) :
    (∀ a ∈ allocs.head?, a.start_address = s) ∧
    allocs.Chain' (fun a b => a.end_address + 1 = b.start_address) := by
  induction allocs generalizing s with
  | nil => exact ⟨by simp, List.chain'_nil⟩
  | cons a allocs ih =>
    have ha := hall a (List.mem_cons_self _ _)
    have hrec := ih (a.end_address + 1) (fun x hx => hall x (List.mem_cons_of_mem _ hx))
      (hp.2 ha)
    refine ⟨?_, ?_⟩
    · intro y hy
      simp only [List.head?_cons, Option.mem_def, Option.some.injEq] at hy
      subst hy
      exact hp.1
    · rw [List.chain'_cons']
      exact ⟨fun y hy => (hrec.1 y hy).symm, hrec.2⟩

/-- What `merge` does in `compact` on a chain without adjacent unused blocks:
the cursor is allocated and the block `n` after it is the unused block that was
just swapped. The chain after the cursor then starts with an unused block at the
start address of `n`, and keeps its allocated blocks and its unused capacity. -/
theorem merge_allocated_shape (temp n : Node) (post : List Node)
    (ht : temp.process_id ≠ UNUSED) (hn : n.process_id = UNUSED) :
    ∃ f r, merge temp (n :: post) = some (temp, f :: r) ∧ f.process_id = UNUSED ∧
      f.start_address = n.start_address ∧
      allocated_caps r = allocated_caps post ∧
      free_sum (f :: r) = free_sum (n :: post) := by
  cases post with
  | nil => exact ⟨n, [], merge_allocated_last temp n ht, hn, rfl, rfl, rfl⟩
  | cons r2 rs =>
    by_cases hr2 : r2.process_id = UNUSED
    · refine ⟨_, rs, merge_allocated_free temp n r2 rs ht hr2, hr2, rfl, ?_, ?_⟩
      · rw [allocated_caps_cons_free r2 rs hr2]
      · simp only [free_sum, if_pos hr2, if_pos hn]
        ring
    · exact ⟨n, r2 :: rs, merge_allocated_allocated temp n r2 rs ht hr2, hn, rfl, rfl, rfl⟩

/-- The loop of `compact` on a chain without adjacent unused blocks, with the
cursor on an allocated block (or on the dummy node): it returns the allocated
blocks `allocs`, with their owners and capacities, in their order, laid out from
the address `s`, followed by nothing when the chain had no unused block and by
one unused block with the whole unused capacity otherwise. -/
theorem compact_loop_packed (k : Nat) (temp : Node) (rest : List Node) (s : Int)
    (hk : rest.length ≤ k) (htemp : temp.process_id ≠ UNUSED)
    (hc : List.Chain' NotBothFree rest) (hp : PackedFrom s rest) :
    ∃ allocs tail, compact_loop temp rest = some (temp, allocs ++ tail) ∧
      (∀ x ∈ allocs, x.process_id ≠ UNUSED) ∧
      caps allocs = allocated_caps rest ∧
      PackedFrom s (allocs ++ tail) ∧
      (((∀ x ∈ rest, x.process_id ≠ UNUSED) ∧ tail = []) ∨
       ((∃ x ∈ rest, x.process_id = UNUSED) ∧
        ∃ f, tail = [f] ∧ f.process_id = UNUSED ∧ f.available_space = free_sum rest)) := by
  induction k generalizing temp rest s with
  | zero =>
    have : rest = [] := List.length_eq_zero.mp (Nat.le_zero.mp hk)
    subst this
    exact ⟨[], [], compact_loop_nil temp, by simp, rfl, trivial, Or.inl ⟨by simp, rfl⟩⟩
  | succ k ih =>
    match rest, hk, hc, hp with
    | [], _, _, _ =>
      exact ⟨[], [], compact_loop_nil temp, by simp, rfl, trivial, Or.inl ⟨by simp, rfl⟩⟩
    | [a], _, _, hp =>
      by_cases ha : a.process_id = UNUSED
      · -- a single unused block: the loop advances onto it and ends
        have htest : compact_test temp a [] = false := by
          simp [compact_test, ha]
        refine ⟨[], [a], ?_, by simp, ?_, hp, Or.inr ⟨⟨a, by simp, ha⟩, a, rfl, ha, ?_⟩⟩
        · rw [compact_loop_cons, htest, compact_loop_nil]
          rfl
        · rw [allocated_caps_cons_free a [] ha]
          rfl
        · simp [free_sum, ha]
      · have htest : compact_test temp a [] = false := by
          simp [compact_test, ha, htemp]
        refine ⟨[a], [], ?_, ?_, ?_, ?_, Or.inl ⟨?_, rfl⟩⟩
        · rw [compact_loop_cons, htest, compact_loop_nil]
          rfl
        · intro x hx
          simp only [List.mem_singleton] at hx
          subst hx
          exact ha
        · rw [allocated_caps_cons_allocated a [] ha]
          rfl
        · simpa using hp
        · intro x hx
          simp only [List.mem_singleton] at hx
          subst hx
          exact ha
    | a :: b :: rs1, hk, hc, hp =>
      simp only [List.length_cons] at hk
      by_cases ha : a.process_id = UNUSED
      · -- an unused block followed by a block: swap, merge, continue
        have hcc := List.chain'_cons.mp hc
        have hb : b.process_id ≠ UNUSED := fun hb => hcc.1 ⟨ha, hb⟩
        have htest : compact_test temp a (b :: rs1) = true := by
          simp [compact_test, ha]
        obtain ⟨f, r, hm, hf, hfs, hac, hfsum⟩ := merge_allocated_shape
          { b with start_address := a.start_address,
                   end_address := a.start_address + b.available_space }
          { a with start_address := a.start_address + b.available_space + 1,
                   end_address := a.start_address + b.available_space + 1 + a.available_space }
          rs1 hb ha
        have hlen := merge_length _ _ _ _ hm
        simp only [List.length_cons] at hlen
        have hchain : List.Chain' NotBothFree (f :: r) :=
          chain_tail _ _ (merge_chain _ _ _ _ _ (List.Chain'.tail hcc.2) hm)
        have hpk : PackedFrom (a.start_address + b.available_space + 1) (f :: r) :=
          ⟨hfs, fun hne => absurd hf hne⟩
        obtain ⟨allocs1, tail1, hloop, hall1, hcaps1, hpk1, htail1⟩ :=
          ih { b with start_address := a.start_address,
                      end_address := a.start_address + b.available_space }
            (f :: r) (a.start_address + b.available_space + 1) (by simp only [List.length_cons]; omega)
            hb hchain hpk
        refine ⟨{ b with start_address := a.start_address,
                         end_address := a.start_address + b.available_space } :: allocs1,
          tail1, ?_, ?_, ?_, ?_, Or.inr ⟨⟨a, by simp, ha⟩, ?_⟩⟩
        · rw [compact_loop_cons, htest]
          simp only [swap_nodes, if_true]
          rw [hm]
          simp only
          rw [hloop]
          rfl
        · intro x hx
          rcases List.mem_cons.mp hx with rfl | hx
          · exact hb
          · exact hall1 x hx
        · rw [allocated_caps_cons_free a _ ha, allocated_caps_cons_allocated b _ hb]
          show (b.process_id, b.available_space) :: caps allocs1 = _
          rw [hcaps1, allocated_caps_cons_free f r hf, hac]
        · exact ⟨hp.1.symm ▸ rfl, fun _ => hpk1⟩
        · rcases htail1 with ⟨hnone, -⟩ | ⟨-, f1, ht1, hf1, hsum1⟩
          · exact absurd hf (hnone f (by simp))
          · refine ⟨f1, ht1, hf1, ?_⟩
            rw [hsum1, hfsum]
            simp only [free_sum, if_pos ha, if_neg hb]
            ring
      · -- an allocated block: the cursor advances
        have htest : compact_test temp a (b :: rs1) = false := by
          simp [compact_test, ha, htemp]
        obtain ⟨allocs1, tail1, hloop, hall1, hcaps1, hpk1, htail1⟩ :=
          ih a (b :: rs1) (a.end_address + 1) (by simp only [List.length_cons]; omega)
            ha (List.Chain'.tail hc) (hp.2 ha)
        refine ⟨a :: allocs1, tail1, ?_, ?_, ?_, ⟨hp.1, fun _ => hpk1⟩, ?_⟩
        · rw [compact_loop_cons, htest]
          simp only [Bool.false_eq_true, if_false]
          rw [hloop]
          rfl
        · intro x hx
          rcases List.mem_cons.mp hx with rfl | hx
          · exact ha
          · exact hall1 x hx
        · rw [allocated_caps_cons_allocated a _ ha]
          show (a.process_id, a.available_space) :: caps allocs1 = _
          rw [hcaps1]
        · rcases htail1 with ⟨hnone, ht1⟩ | ⟨⟨x, hx, hxu⟩, f1, ht1, hf1, hsum1⟩
          · refine Or.inl ⟨?_, ht1⟩
            intro x hx
            rcases List.mem_cons.mp hx with rfl | hx
            · exact ha
            · exact hnone x hx
          · refine Or.inr ⟨⟨x, List.mem_cons_of_mem _ hx, hxu⟩, f1, ht1, hf1, ?_⟩
            rw [hsum1]
            simp only [free_sum, if_neg ha, zero_add]

/-- The partition `[P1:0-9][free:10-19][P2:20-29][free:30-39]` of a memory of
total size 40, with the capacities as this program counts them (end - start). -/
def fragmented_example : Mem :=
  { head := { available_space := 18, start_address := -1, end_address := -1,
              process_id := "Dummy Node" },
    nodes :=
      [{ available_space := 9, start_address := 0, end_address := 9, process_id := "P1" },
       { available_space := 9, start_address := 10, end_address := 19,
         process_id := UNUSED },
       { available_space := 9, start_address := 20, end_address := 29, process_id := "P2" },
       { available_space := 9, start_address := 30, end_address := 39,
         process_id := UNUSED }],
    last_address_space := 39 }

/-- C15 (compaction result): for every partition that satisfies the coverage and
no-adjacent-free invariants and contains at least one unused block, one call of
`compact` returns, leaves the counter of free bytes in `head` as it was, and
yields the chain `allocs ++ [f]`: `allocs` are the allocated blocks in their
original relative order with the same owners and capacities, packed from
address 0 (the first starts at 0 and each next one starts at the end of the one
before + 1), and `f` is one unused block whose capacity is the sum of all the
unused capacities. The dummy node is not labelled unused. -/
theorem compact_result (m : Mem) (total : Int)
    (hhead : m.head.process_id ≠ UNUSED)
    (hcov : Coverage total m.nodes) (hadj : NoAdjacentFree m.nodes)
    (hfree : ∃ n ∈ m.nodes, n.process_id = UNUSED) :
    ∃ allocs f, compact m = some { m with nodes := allocs ++ [f] } ∧
      caps allocs = allocated_caps m.nodes ∧
      (∀ a ∈ allocs.head?, a.start_address = 0) ∧
      allocs.Chain' (fun a b => a.end_address + 1 = b.start_address) ∧
      f.process_id = UNUSED ∧ f.available_space = free_sum m.nodes := by
  have hp : PackedFrom 0 m.nodes := by
    refine packedFrom_of_chain m.nodes 0 ?_ hcov.2.1
    intro a ha
    have h0 := hcov.1
    rw [Option.mem_def.mp ha] at h0
    simpa using h0
  obtain ⟨allocs, tail, hloop, hall, hcaps, hpk, htail⟩ :=
    compact_loop_packed m.nodes.length m.head m.nodes 0 le_rfl hhead hadj hp
  rcases htail with ⟨hnone, -⟩ | ⟨-, f, rfl, hf, hsum⟩
  · obtain ⟨n, hn, hnu⟩ := hfree
    exact absurd hnu (hnone n hn)
  · have hpacked := packed_of_packedFrom allocs [f] 0 hall hpk
    refine ⟨allocs, f, ?_, hcaps, hpacked.1, hpacked.2, hf, hsum⟩
    unfold compact
    rw [hloop]

/-- Witness of C15: the partition `[P1:0-9][free:10-19][P2:20-29][free:30-39]`. -/
theorem compact_result_witness :
    fragmented_example.head.process_id ≠ UNUSED ∧
    Coverage 40 fragmented_example.nodes ∧ NoAdjacentFree fragmented_example.nodes ∧
    (∃ n ∈ fragmented_example.nodes, n.process_id = UNUSED) ∧
    ∃ allocs f, compact fragmented_example =
        some { fragmented_example with nodes := allocs ++ [f] } ∧
      caps allocs = allocated_caps fragmented_example.nodes ∧
      (∀ a ∈ allocs.head?, a.start_address = 0) ∧
      allocs.Chain' (fun a b => a.end_address + 1 = b.start_address) ∧
      f.process_id = UNUSED ∧ f.available_space = free_sum fragmented_example.nodes :=
  have hcov : Coverage 40 fragmented_example.nodes := by
    simp [Coverage, fragmented_example]
  have hadj : NoAdjacentFree fragmented_example.nodes := by
    simp [NoAdjacentFree, NotBothFree, fragmented_example, UNUSED]
  ⟨by decide, hcov, hadj, by decide,
    compact_result fragmented_example 40 (by decide) hcov hadj (by decide)⟩

/-- One call of `compact` on `[P1:0-9][free:10-19][P2:20-29][free:30-39]` gives
`[P1:0-9][P2:10-19][free:20-39]`, the unused block having the capacity 18. -/
theorem compact_example :
    compact fragmented_example =
      some { fragmented_example with
        nodes :=
          [{ available_space := 9, start_address := 0, end_address := 9, process_id := "P1" },
           { available_space := 9, start_address := 10, end_address := 19,
             process_id := "P2" },
           { available_space := 18, start_address := 20, end_address := 39,
             process_id := UNUSED }] } := by
  have h := compact_fuel_eq 5 fragmented_example.head fragmented_example.nodes (by decide)
  have h2 : compact_fuel 5 fragmented_example.head fragmented_example.nodes =
      some (some (fragmented_example.head,
        [{ available_space := 9, start_address := 0, end_address := 9, process_id := "P1" },
         { available_space := 9, start_address := 10, end_address := 19,
           process_id := "P2" },
         { available_space := 18, start_address := 20, end_address := 39,
           process_id := UNUSED }])) := by
    decide
  rw [h2] at h
  unfold compact
  rw [← Option.some.inj h]

end MemoryManager
